import Mathlib

/-!
Verification development for the Sentinel intelligence-aggregation system.

The Python sources (src/config.py, src/modules/watchtower.py,
src/modules/mailroom.py, src/modules/synthesizer.py) are shallowly embedded
below.  Text is modelled as `List Char`; Python regular-expression matching
(the `re` module with `re.IGNORECASE`, backtracking, leftmost match,
greedy quantifiers, `findall` returning the single capture group) is
embedded by a small fuelled backtracking matcher over a regex syntax tree.
External collaborators (feedparser, BeautifulSoup markup stripping, the
Gmail service, PDF extraction, the JSON (de)serialisation boundary of the
standard library) are modelled as explicit function parameters or, for the
JSON boundary, by working with the JSON document tree directly.
-/

/-- Text is modelled as a list of characters (Python `str`). -/
abbrev Text := List Char

/-- Python `str.lower()`, restricted to the ASCII range that all configured
keywords and patterns use. -/
def lowerText (t : Text) : Text := t.map Char.toLower

/-- Python substring test `needle in hay`. -/
def containsSub (n : Text) : Text → Bool
  | [] => n.isEmpty
  | c :: t => n.isPrefixOf (c :: t) || containsSub n t

/-- Character class `\s` of the `re` module (ASCII part). -/
def isSpaceChar (c : Char) : Bool :=
  c == ' ' || c == '\t' || c == '\n' || c == '\r' || c == '\x0b' || c == '\x0c'

/-- Character class `\d` of the `re` module (ASCII part). -/
def isDigitChar (c : Char) : Bool := c.isDigit

/-- Syntax trees for the regular expressions appearing in
`config.METRIC_PATTERNS`.  `group` marks the unique capture group of each
pattern; `findall` returns its captures. -/
inductive RE where
  | eps
  | pred (p : Char → Bool)
  | cat (a b : RE)
  | alt (a b : RE)
  | opt (a : RE)
  | star (a : RE)
  | group (a : RE)

/-- Result of a successful anchored match: the capture of the (unique)
group and the remaining input after the whole pattern. -/
structure MRes where
  grp : Text
  rest : Text
deriving DecidableEq, Repr

/-- Backtracking CPS matcher implementing the semantics of the Python `re`
engine on the pattern fragment: alternatives are tried left to right,
`opt`/`star` are greedy, failure backtracks into earlier choice points.
`fuel` only bounds the recursion depth; `mtFuel` below always provides
enough of it, so the fuel never changes the computed answer. A `star` body
must consume input for the iteration to count, as in the `re` module. -/
def reMatch : Nat → RE → Text → (Text → Option MRes) → Option MRes
  | 0, _, _, _ => none
  | _ + 1, .eps, s, k => k s
  | _ + 1, .pred p, s, k =>
    match s with
    | [] => none
    | c :: t => if p c then k t else none
  | fuel + 1, .cat a b, s, k => reMatch fuel a s (fun s1 => reMatch fuel b s1 k)
  | fuel + 1, .alt a b, s, k => (reMatch fuel a s k) <|> (reMatch fuel b s k)
  | fuel + 1, .opt a, s, k => (reMatch fuel a s k) <|> k s
  | fuel + 1, .star a, s, k =>
    (reMatch fuel a s (fun s1 =>
      if s1.length < s.length then reMatch fuel (.star a) s1 k else none)) <|> k s
  | fuel + 1, .group a, s, k =>
    reMatch fuel a s (fun s1 =>
      (k s1).map (fun r => { r with grp := s.take (s.length - s1.length) }))

/-- Size of a regex tree, used to compute sufficient fuel. -/
def reSize : RE → Nat
  | .eps => 1
  | .pred _ => 1
  | .cat a b => reSize a + reSize b + 1
  | .alt a b => reSize a + reSize b + 1
  | .opt a => reSize a + 1
  | .star a => reSize a + 1
  | .group a => reSize a + 1

/-- Fuel that is always sufficient for `reMatch` on the given input: the depth
of any call chain is bounded by the pattern size plus one step per `star`
iteration, and each `star` iteration strictly consumes input. -/
def mtFuel (re : RE) (s : Text) : Nat := (reSize re + 1) * (s.length + 4)

/-- Anchored match of a pattern at the start of `s`, with the top-level
continuation accepting any remainder (Python `pattern.match`-like search
step used by `findall`). -/
def matchAt (re : RE) (s : Text) : Option MRes :=
  reMatch (mtFuel re s) re s (fun rest => some { grp := [], rest := rest })

/-- Scanner of `re.findall`: try a match at each position from left to
right; on a match, record the capture group and resume after the matched
text (one character further if the match was empty). -/
def findallAux : Nat → RE → Text → List Text
  | 0, _, _ => []
  | fuel + 1, re, s =>
    match matchAt re s with
    | some r =>
      if r.rest.length < s.length then r.grp :: findallAux fuel re r.rest
      else
        match s with
        | [] => [r.grp]
        | _ :: t => r.grp :: findallAux fuel re t
    | none =>
      match s with
      | [] => []
      | _ :: t => findallAux fuel re t

/-- Python `re.findall(pattern, text, re.IGNORECASE)` for a pattern with a
single capture group: the list of captures of all non-overlapping matches,
in order of occurrence. -/
def findall (re : RE) (s : Text) : List Text := findallAux (s.length + 1) re s

/-- Case-insensitive single-character literal (`re.IGNORECASE`); `d` is the
lower-case pattern character. -/
def litChar (d : Char) : RE := .pred (fun c => c.toLower == d)

/-- Case-insensitive literal word. -/
def lit (w : String) : RE :=
  w.toList.foldr (fun d r => RE.cat (litChar d) r) .eps

/-- `p+` for a character class. -/
def many1 (p : Char → Bool) : RE := .cat (.pred p) (.star (.pred p))

/-- Alternation `a|b|c` folded right, preserving the declared order. -/
def alts : List RE → RE
  | [] => .eps
  | [r] => r
  | r :: rs => .alt r (alts rs)

/-- Pattern fragment `\s+`. -/
def ws1 : RE := many1 isSpaceChar

/-- Pattern fragment `\s*`. -/
def ws0 : RE := .star (.pred isSpaceChar)

/-- Pattern fragment `\d+(?:\.\d+)?` (the capture body of the percentage,
multiplier and time-savings patterns). -/
def numberRE : RE :=
  .cat (many1 isDigitChar) (.opt (.cat (litChar '.') (many1 isDigitChar)))

/-- Pattern fragment `\d+(?:,\d{3})*(?:\.\d+)?` (the capture body of the
cost-savings pattern). -/
def costNumberRE : RE :=
  .cat (many1 isDigitChar)
    (.cat
      (.star (.cat (litChar ',')
        (.cat (.pred isDigitChar) (.cat (.pred isDigitChar) (.pred isDigitChar)))))
      (.opt (.cat (litChar '.') (many1 isDigitChar))))

/-- Fragment `(?:increased?|improved?|reduced?|saved?|grew?|boost(?:ed)?)`
of `METRIC_PATTERNS["percentage"]`. -/
def percentVerbsRE : RE :=
  alts
    [ .cat (lit "increase") (.opt (lit "d"))
    , .cat (lit "improve") (.opt (lit "d"))
    , .cat (lit "reduce") (.opt (lit "d"))
    , .cat (lit "save") (.opt (lit "d"))
    , .cat (lit "gre") (.opt (lit "w"))
    , .cat (lit "boost") (.opt (lit "ed")) ]

/-- Fragment `(?:saved?|reduced?)` shared by the time-savings and
cost-savings patterns. -/
def saveVerbsRE : RE :=
  alts [ .cat (lit "save") (.opt (lit "d")), .cat (lit "reduce") (.opt (lit "d")) ]

/-- `METRIC_PATTERNS["percentage"]`:
`(?:increased?|improved?|reduced?|saved?|grew?|boost(?:ed)?)\s+(?:by\s+)?(\d+(?:\.\d+)?)\s*%`. -/
def percentageRE : RE :=
  .cat percentVerbsRE
    (.cat ws1
      (.cat (.opt (.cat (lit "by") ws1))
        (.cat (.group numberRE) (.cat ws0 (litChar '%')))))

/-- `METRIC_PATTERNS["multiplier"]`:
`(\d+(?:\.\d+)?)\s*x\s+(?:faster|better|more efficient|improvement)`. -/
def multiplierRE : RE :=
  .cat (.group numberRE)
    (.cat ws0
      (.cat (litChar 'x')
        (.cat ws1
          (alts [lit "faster", lit "better", lit "more efficient", lit "improvement"]))))

/-- `METRIC_PATTERNS["time_savings"]`:
`(?:saved?|reduced?)\s+(\d+(?:\.\d+)?)\s*(?:hours?|days?|weeks?|minutes?|ms|milliseconds?)`. -/
def timeSavingsRE : RE :=
  .cat saveVerbsRE
    (.cat ws1
      (.cat (.group numberRE)
        (.cat ws0
          (alts
            [ .cat (lit "hour") (.opt (lit "s"))
            , .cat (lit "day") (.opt (lit "s"))
            , .cat (lit "week") (.opt (lit "s"))
            , .cat (lit "minute") (.opt (lit "s"))
            , lit "ms"
            , .cat (lit "millisecond") (.opt (lit "s")) ]))))

/-- `METRIC_PATTERNS["cost_savings"]`:
`(?:saved?|reduced?)\s+\$?(\d+(?:,\d{3})*(?:\.\d+)?)\s*(?:million|billion|k|thousand)?`. -/
def costSavingsRE : RE :=
  .cat saveVerbsRE
    (.cat ws1
      (.cat (.opt (litChar '$'))
        (.cat (.group costNumberRE)
          (.cat ws0
            (.opt (alts [lit "million", lit "billion", lit "k", lit "thousand"]))))))

/-- `config.METRIC_PATTERNS`, in dict insertion order. -/
def METRIC_PATTERNS : List (Text × RE) :=
  [ ("percentage".toList, percentageRE)
  , ("multiplier".toList, multiplierRE)
  , ("time_savings".toList, timeSavingsRE)
  , ("cost_savings".toList, costSavingsRE) ]

/-- `config.CATEGORY_KEYWORDS`, in dict insertion order. -/
def CATEGORY_KEYWORDS : List (Text × List Text) :=
  [ ("customer_improvement".toList,
      [ "customer".toList, "case study".toList, "success story".toList
      , "testimonial".toList, "implementation".toList, "deployed".toList
      , "adopted".toList, "integrated".toList, "saved".toList, "reduced".toList
      , "improved".toList, "increased".toList, "roi".toList ])
  , ("breakthrough".toList,
      [ "breakthrough".toList, "novel".toList, "first".toList
      , "revolutionary".toList, "discovery".toList, "state-of-the-art".toList
      , "sota".toList, "unprecedented".toList, "groundbreaking".toList ])
  , ("use_case".toList,
      [ "how to".toList, "tutorial".toList, "implementation".toList
      , "use case".toList, "guide".toList, "example".toList, "demo".toList
      , "showcase".toList, "practical".toList ])
  , ("white_paper".toList,
      [ "paper".toList, "research".toList, "study".toList, "arxiv".toList
      , "journal".toList, "pdf".toList, "preprint".toList
      , "publication".toList, "technical report".toList ]) ]

/-- One extracted metric (`watchtower.Watchtower.extract_metrics` appends
dicts with keys `type`, `value`, `context`). -/
structure Metric where
  type : Text
  value : Text
  context : Text
deriving DecidableEq, Repr

/-- An intelligence item (`watchtower.IntelligenceItem`). -/
structure IntelligenceItem where
  title : Text
  source : Text
  link : Text
  summary : Text
  timestamp : Text
  category : Text
  metrics : List Metric
  raw_content : Option Text
deriving DecidableEq, Repr

/-- Inner loop of `Watchtower.categorize_content`: return on the first
keyword contained in the lower-cased text. -/
def keywordHit (kws : List Text) (tl : Text) : Bool :=
  kws.any (fun k => containsSub k tl)

/-- Outer loop of `Watchtower.categorize_content` over the category table. -/
def categorizeGo : List (Text × List Text) → Text → Text
  | [], _ => "general".toList
  | (c, kws) :: rest, tl =>
    if keywordHit kws tl then c else categorizeGo rest tl

/-- `Watchtower.categorize_content`: first category (in declared table
order) one of whose keywords occurs in the lower-cased text, else
`general`. -/
def categorize_content (text : Text) : Text :=
  categorizeGo CATEGORY_KEYWORDS (lowerText text)

/-- `Watchtower.extract_metrics`: for each pattern type in declared order,
all `findall` captures, each paired with the first 200 characters of the
original input as context. -/
def extract_metrics (text : Text) : List Metric :=
  METRIC_PATTERNS.foldl
    (fun acc p =>
      acc ++ (findall p.2 text).map
        (fun v => { type := p.1, value := v, context := text.take 200 }))
    []

/-- A raw feedparser entry as consumed by
`Watchtower.fetch_rss_intelligence` (each field may be absent). -/
structure FeedEntry where
  title : Option Text
  link : Option Text
  summary : Option Text
  description : Option Text
  published : Option Text

/-- The raw summary chosen by the feed path:
`entry.get('summary', entry.get('description', ''))`. -/
def rawSummary (e : FeedEntry) : Text :=
  e.summary.getD (e.description.getD [])

/-- Normalisation of one feed entry inside
`Watchtower.fetch_rss_intelligence` (loop body, lines 123-140).
`stripMarkup` stands for the external `BeautifulSoup(...).get_text()`
collaborator and `now` for `datetime.now().isoformat()`. -/
def normalizeFeedEntry (stripMarkup : Text → Text) (now feedTitle : Text)
    (e : FeedEntry) : IntelligenceItem :=
  let summary0 := rawSummary e
  let summary := if summary0.isEmpty then summary0 else (stripMarkup summary0).take 500
  let combined := (e.title.getD []) ++ (' ' :: summary)
  { title := e.title.getD "Untitled".toList
  , source := feedTitle
  , link := e.link.getD []
  , summary := summary
  , timestamp := e.published.getD now
  , category := categorize_content combined
  , metrics := extract_metrics combined
  , raw_content := none }

/-- A scraped DOM fragment as consumed by
`Watchtower.fetch_deep_web_intelligence`: the text of the title element
(if any), the href of the first anchor (if an anchor exists; its href
attribute may itself be absent, defaulting to the empty string), and the
text of the description element (if any). -/
structure PageFragment where
  titleText : Option Text
  linkHref : Option (Option Text)
  summaryText : Option Text

/-- The link extracted for a fragment:
`link_el.get('href', '') if link_el else url`. -/
def fragmentLink (pageUrl : Text) (f : PageFragment) : Text :=
  match f.linkHref with
  | none => pageUrl
  | some h => h.getD []

/-- Normalisation of one DOM fragment inside
`Watchtower.fetch_deep_web_intelligence` (loop body, lines 189-210):
fragments without a title element produce no item; relative links are
resolved by concatenating the page url with the extracted link. -/
def normalizePageFragment (now pageUrl : Text) (f : PageFragment) :
    Option IntelligenceItem :=
  match f.titleText with
  | none => none
  | some title =>
    let link := fragmentLink pageUrl f
    let summary := match f.summaryText with | none => [] | some s => s.take 500
    let combined := title ++ (' ' :: summary)
    some
      { title := title
      , source := "Deep Web: ".toList ++ pageUrl.take 30
      , link := if "http".toList.isPrefixOf link then link else pageUrl ++ link
      , summary := summary
      , timestamp := now
      , category := categorize_content combined
      , metrics := extract_metrics combined
      , raw_content := none }

/-- Per-page fragment processing of
`Watchtower.fetch_deep_web_intelligence`: `for article in articles[:10]`,
keeping only fragments with a title element. -/
def processPage (now pageUrl : Text) (frags : List PageFragment) :
    List IntelligenceItem :=
  (frags.take 10).filterMap (normalizePageFragment now pageUrl)

/-- An email intelligence record (`mailroom.EmailIntelligence`). -/
structure EmailIntelligence where
  subject : Text
  sender : Text
  snippet : Text
  gmail_link : Text
  timestamp : Text
  attachments : List Text
  pdf_content : Option Text
deriving DecidableEq, Repr

/-- One attachment part of a Gmail message payload. -/
structure GmailPart where
  filename : Text
  attachmentId : Option Text

/-- A raw Gmail message as returned by the external service. -/
structure GmailMessage where
  headers : List (Text × Text)
  snippet : Text
  parts : List GmailPart

/-- Python dict comprehension `{h['name']: h['value'] for h in headers}`
followed by `.get k`: the value of the last header with the given name. -/
def headerDict : List (Text × Text) → Text → Option Text
  | [], _ => none
  | (n, v) :: rest, k =>
    match headerDict rest k with
    | some r => some r
    | none => if n == k then some v else none

/-- Attachment loop of `Mailroom.search_whitepapers` (lines 200-213):
download each `.pdf` part that has an attachment id; a successful download
appends the filename and replaces the pdf text by the extraction result.
`download` and `extractPdf` stand for the external Gmail-attachment and
PyPDF2 collaborators. -/
def processParts (download : Text → Text → Text → Option Text)
    (extractPdf : Text → Text) (msgId : Text) (parts : List GmailPart) :
    List Text × Option Text :=
  parts.foldl
    (fun st part =>
      if ".pdf".toList.isSuffixOf part.filename then
        match part.attachmentId with
        | some aid =>
          match download msgId aid part.filename with
          | some filepath => (st.1 ++ [part.filename], some (extractPdf filepath))
          | none => st
        | none => st
      else st)
    ([], none)

/-- Prefix of the Gmail deep link built by `Mailroom.search_whitepapers`. -/
def gmailLinkBase : Text := "https://mail.google.com/mail/u/0/#inbox/".toList

/-- Construction of one `EmailIntelligence` from a fetched message
(`Mailroom.search_whitepapers`, lines 188-224). `fetch` stands for the
external `users().messages().get` call and `now` for
`datetime.now().isoformat()`. -/
def mkEmailItem (fetch : Text → GmailMessage)
    (download : Text → Text → Text → Option Text) (extractPdf : Text → Text)
    (now msgId : Text) : EmailIntelligence :=
  let msg := fetch msgId
  let res := processParts download extractPdf msgId msg.parts
  { subject := (headerDict msg.headers "Subject".toList).getD "No Subject".toList
  , sender := (headerDict msg.headers "From".toList).getD "Unknown".toList
  , snippet := msg.snippet
  , gmail_link := gmailLinkBase ++ msgId
  , timestamp := (headerDict msg.headers "Date".toList).getD now
  , attachments := res.1
  , pdf_content := res.2 }

/-- Inner loop of `Mailroom.search_whitepapers` over one query result:
message ids already in the seen set are skipped, new ids are added to the
seen set and produce exactly one item. -/
def queryGo (fetch : Text → GmailMessage)
    (download : Text → Text → Text → Option Text) (extractPdf : Text → Text)
    (now : Text) : List Text → List Text → List EmailIntelligence →
    List EmailIntelligence × List Text
  | [], seen, items => (items, seen)
  | msgId :: ids, seen, items =>
    if seen.contains msgId then queryGo fetch download extractPdf now ids seen items
    else
      queryGo fetch download extractPdf now ids (msgId :: seen)
        (items ++ [mkEmailItem fetch download extractPdf now msgId])

/-- Outer loop of `Mailroom.search_whitepapers` over the configured
queries; the seen set persists across queries for the whole sweep. -/
def sweepGo (fetch : Text → GmailMessage)
    (download : Text → Text → Text → Option Text) (extractPdf : Text → Text)
    (now : Text) : List (List Text) → List Text → List EmailIntelligence →
    List EmailIntelligence
  | [], _, items => items
  | q :: qs, seen, items =>
    let st := queryGo fetch download extractPdf now q seen items
    sweepGo fetch download extractPdf now qs st.2 st.1

/-- `Mailroom.search_whitepapers`: one full mailbox sweep, given the list
of message ids each search query returns. -/
def search_whitepapers (fetch : Text → GmailMessage)
    (download : Text → Text → Text → Option Text) (extractPdf : Text → Text)
    (now : Text) (queryResults : List (List Text)) : List EmailIntelligence :=
  sweepGo fetch download extractPdf now queryResults [] []

/-- JSON document trees.  `SynthesisCore.prepare_intelligence_data` returns
`json.dumps(data, indent=2)` and `fallback_synthesize` starts with
`json.loads`; that string boundary belongs to the Python standard library
(an external collaborator whose `loads` is inverse to `dumps`), so the
exchange document is modelled by its tree and a failed `json.loads` by
`Option.none`. -/
inductive Json where
  | null
  | str (s : Text)
  | arr (xs : List Json)
  | obj (fields : List (Text × Json))

/-- Lookup of a key in a JSON object (`d.get(k)` / `d[k]` on dicts). -/
def objGet : Json → Text → Option Json
  | .obj fields, k => (fields.find? (fun p => p.1 == k)).map (fun p => p.2)
  | _, _ => none

/-- Python `d.get(k, [])` followed by iteration: the element list when the
value is a JSON array.  (On a non-array value the source would raise; no
claim exercises that path, since the exchange document always stores
arrays under both keys.) -/
def jsonArrField (d : Json) (k : Text) : List Json :=
  match objGet d k with
  | some (.arr xs) => xs
  | _ => []

/-- Python string indexing `item[k]` for the string-valued fields the
fallback report reads.  (A missing key would raise in the source; the
claims only instantiate the report with well-formed exchange documents,
where every read key is present.) -/
def objGetStr (d : Json) (k : Text) : Text :=
  match objGet d k with
  | some (.str s) => s
  | _ => []

/-- Python truthiness of a value obtained from a JSON document
(`if item.get('metrics'):` and `if item.get('attachments'):`). -/
def jsonTruthy : Json → Bool
  | .null => false
  | .str s => !s.isEmpty
  | .arr xs => !xs.isEmpty
  | .obj fields => !fields.isEmpty

/-- Python `item.get(k)`, whose `None` result is falsy. -/
def objGetD (d : Json) (k : Text) : Json := (objGet d k).getD .null

/-- Comparison `i.get("category") == cat` of the fallback synthesizer:
true exactly when the key holds the given string. -/
def categoryIs (i : Json) (cat : Text) : Bool :=
  match objGet i "category".toList with
  | some (.str s) => s == cat
  | _ => false

/-- Single-quote character used by Python `repr` of strings. -/
def pyQuote : Char := '\''

/-- Opening brace character, used by Python `repr` of dicts. -/
def lbraceChar : Char := Char.ofNat 123

/-- Closing brace character, used by Python `repr` of dicts. -/
def rbraceChar : Char := Char.ofNat 125

/-- Escaping performed by Python `repr` inside a single-quoted string
(the characters that can occur in this pipeline). -/
def pyEscapeChar (c : Char) : Text :=
  if c == '\\' then ['\\', '\\']
  else if c == pyQuote then ['\\', pyQuote]
  else if c == '\n' then ['\\', 'n']
  else if c == '\r' then ['\\', 'r']
  else if c == '\t' then ['\\', 't']
  else [c]

/-- Python `repr` of a string (single-quoted). -/
def pyReprStr (s : Text) : Text :=
  pyQuote :: (s.flatMap pyEscapeChar) ++ [pyQuote]

/-- Python `', '.join` / the separator placed by `str` between container
elements. -/
def joinSep (sep : Text) : List Text → Text
  | [] => []
  | [x] => x
  | x :: xs => x ++ sep ++ joinSep sep xs

mutual

/-- Python `str()` of a value parsed from JSON, used by the f-string
`{item['metrics']}` in the fallback report. -/
def pyRepr : Json → Text
  | .null => "None".toList
  | .str s => pyReprStr s
  | .arr xs => '[' :: pyReprList xs ++ [']']
  | .obj fields => lbraceChar :: pyReprFields fields ++ [rbraceChar]

/-- Elements of a Python list rendering, separated by a comma and space. -/
def pyReprList : List Json → Text
  | [] => []
  | [x] => pyRepr x
  | x :: xs => pyRepr x ++ ", ".toList ++ pyReprList xs

/-- Entries of a Python dict rendering. -/
def pyReprFields : List (Text × Json) → Text
  | [] => []
  | [(k, v)] => pyReprStr k ++ ": ".toList ++ pyRepr v
  | (k, v) :: fs => pyReprStr k ++ ": ".toList ++ pyRepr v ++ ", ".toList ++ pyReprFields fs

end

/-- Elements of a JSON array as strings (`', '.join(item['attachments'])`
operates on a list of strings). -/
def asStrList : Json → List Text
  | .arr xs => xs.map (fun j => match j with | .str s => s | _ => [])
  | _ => []

/-- Decimal rendering of a count spliced into an f-string. -/
def fmtNat (n : Nat) : Text := (toString n).toList

/-- Breakthrough bullet of the fallback report:
`- **{title}** ({source})` plus a metrics line when `item.get('metrics')`
is truthy. -/
def breakthroughLine (j : Json) : Text :=
  "- **".toList ++ objGetStr j "title".toList ++ "** (".toList
    ++ objGetStr j "source".toList ++ ")\n".toList
    ++ (if jsonTruthy (objGetD j "metrics".toList) then
          "  - Metrics: ".toList ++ pyRepr (objGetD j "metrics".toList) ++ "\n".toList
        else [])

/-- Customer-improvement bullet of the fallback report. -/
def customerLine (j : Json) : Text :=
  "- **".toList ++ objGetStr j "title".toList ++ "** (".toList
    ++ objGetStr j "source".toList ++ ")\n  - ".toList
    ++ (objGetStr j "summary".toList).take 150 ++ "...\n".toList

/-- Use-case bullet of the fallback report. -/
def useCaseLine (j : Json) : Text :=
  "- [".toList ++ objGetStr j "title".toList ++ "](".toList
    ++ objGetStr j "link".toList ++ ")\n".toList

/-- White-paper bullet of the fallback report. -/
def whitePaperLine (j : Json) : Text :=
  "- **".toList ++ objGetStr j "title".toList ++ "**\n".toList

/-- Email bullet of the white-papers section of the fallback report. -/
def emailLine (j : Json) : Text :=
  "- **".toList ++ objGetStr j "subject".toList ++ "** (from: ".toList
    ++ (objGetStr j "sender".toList).take 30 ++ ")\n".toList
    ++ (if jsonTruthy (objGetD j "attachments".toList) then
          "  - Attachments: ".toList
            ++ joinSep ", ".toList (asStrList (objGetD j "attachments".toList))
            ++ "\n".toList
        else [])

/-- Rendering of the bullets of one capped report section
(`for item in bucket[:cap]: report += line(item)`). -/
def sectionLines (line : Json → Text) (items : List Json) : Text :=
  (items.map line).flatten

/-- Leading block of the fallback report (the first f-string of
`SynthesisCore.fallback_synthesize`, lines 194-204), ending with the
Breakthroughs header. -/
def fallbackIntro (now : Text) (nw ne nb : Nat) : Text :=
  "# Sentinel Intelligence Report\n**Date**: ".toList ++ now
    ++ "\n**Items Analyzed**: ".toList ++ fmtNat (nw + ne)
    ++ "\n**Mode**: Rule-Based Fallback (AI unavailable)\n\n## Executive Summary\nProcessed ".toList
    ++ fmtNat nw ++ " web intelligence items and ".toList ++ fmtNat ne
    ++ " email items. \nThis report was generated using keyword-based categorization.\n\n## Breakthroughs (".toList
    ++ fmtNat nb ++ " items)\n".toList

/-- Trailing Raw Signal Count section of the fallback report (lines
227-235): exact, uncapped totals of every bucket. -/
def rawSignalCountText (nw ne nb nc nu nwp : Nat) : Text :=
  "\n## Raw Signal Count\n- Total web items: ".toList ++ fmtNat nw
    ++ "\n- Total email items: ".toList ++ fmtNat ne
    ++ "\n- Breakthroughs: ".toList ++ fmtNat nb
    ++ "\n- Customer Improvements: ".toList ++ fmtNat nc
    ++ "\n- Use Cases: ".toList ++ fmtNat nu
    ++ "\n- White Papers: ".toList ++ fmtNat nwp
    ++ "\n".toList

/-- `SynthesisCore.fallback_synthesize`: the rule-based report.  `loaded`
is the outcome of `json.loads` on the exchange document (`none` when the
document is unparseable, in which case empty collections are substituted);
`now` stands for `datetime.now().strftime("%Y-%m-%d %H:%M")`. -/
def fallback_synthesize (now : Text) (loaded : Option Json) : Text :=
  let data := loaded.getD
    (Json.obj [("web_intelligence".toList, .arr []), ("email_intelligence".toList, .arr [])])
  let web_items := jsonArrField data "web_intelligence".toList
  let email_items := jsonArrField data "email_intelligence".toList
  let breakthroughs := web_items.filter (fun i => categoryIs i "breakthrough".toList)
  let use_cases := web_items.filter (fun i => categoryIs i "use_case".toList)
  let customer_items := web_items.filter (fun i => categoryIs i "customer_improvement".toList)
  let white_papers := web_items.filter (fun i => categoryIs i "white_paper".toList)
  fallbackIntro now web_items.length email_items.length breakthroughs.length
    ++ sectionLines breakthroughLine (breakthroughs.take 10)
    ++ "\n## Customer Improvements (".toList ++ fmtNat customer_items.length ++ " items)\n".toList
    ++ sectionLines customerLine (customer_items.take 10)
    ++ "\n## Use Cases (".toList ++ fmtNat use_cases.length ++ " items)\n".toList
    ++ sectionLines useCaseLine (use_cases.take 10)
    ++ "\n## White Papers (".toList ++ fmtNat (white_papers.length + email_items.length) ++ " items)\n".toList
    ++ sectionLines whitePaperLine (white_papers.take 5)
    ++ sectionLines emailLine (email_items.take 5)
    ++ rawSignalCountText web_items.length email_items.length breakthroughs.length
        customer_items.length use_cases.length white_papers.length

/-- JSON entry built by `SynthesisCore.prepare_intelligence_data` for one
metric dict. -/
def metricJson (m : Metric) : Json :=
  .obj [ ("type".toList, .str m.type), ("value".toList, .str m.value)
       , ("context".toList, .str m.context) ]

/-- JSON entry built by `SynthesisCore.prepare_intelligence_data` for one
web item (lines 128-136). -/
def webJson (i : IntelligenceItem) : Json :=
  .obj [ ("title".toList, .str i.title)
       , ("source".toList, .str i.source)
       , ("summary".toList, .str (i.summary.take 500))
       , ("category".toList, .str i.category)
       , ("metrics".toList, .arr (i.metrics.map metricJson))
       , ("link".toList, .str i.link) ]

/-- JSON entry built by `SynthesisCore.prepare_intelligence_data` for one
email item (lines 138-145); a missing or empty pdf text serialises as
`None` (`item.pdf_content[:1000] if item.pdf_content else None`). -/
def emailJson (e : EmailIntelligence) : Json :=
  .obj [ ("subject".toList, .str e.subject)
       , ("sender".toList, .str e.sender)
       , ("snippet".toList, .str e.snippet)
       , ("attachments".toList, .arr (e.attachments.map .str))
       , ("pdf_excerpt".toList,
          match e.pdf_content with
          | some p => if p.isEmpty then .null else .str (p.take 1000)
          | none => .null) ]

/-- `SynthesisCore.prepare_intelligence_data`: the exchange document
handed to the summarizer (its `json.dumps` rendering is the external
boundary). -/
def prepare_intelligence_data (web : List IntelligenceItem)
    (email : List EmailIntelligence) : Json :=
  .obj [ ("web_intelligence".toList, .arr (web.map webJson))
       , ("email_intelligence".toList, .arr (email.map emailJson)) ]

/-- Shape, from the spec, of one web entry of the exchange document: the
fields the contract says a web entry carries (and the fallback reads). -/
structure WebEntryView where
  title : Text
  source : Text
  summary : Text
  category : Text
  metrics : Json
  link : Text

/-- Shape, from the spec, of one email entry of the exchange document. -/
structure EmailEntryView where
  subject : Text
  sender : Text
  snippet : Text
  attachments : List Text
  pdfExcerpt : Json

/-- Parse a list of JSON strings (the serialized attachment names). -/
def decodeStrList : List Json → Option (List Text)
  | [] => some []
  | .str s :: rest => (decodeStrList rest).map (fun l => s :: l)
  | _ => none

/-- Modelled from the spec: parse one web entry of the exchange document
back into its declared shape, reading the same keys the fallback
synthesizer reads. -/
def decodeWebEntry (j : Json) : Option WebEntryView :=
  match objGet j "title".toList, objGet j "source".toList,
      objGet j "summary".toList, objGet j "category".toList,
      objGet j "metrics".toList, objGet j "link".toList with
  | some (.str t), some (.str so), some (.str su), some (.str c), some m, some (.str l) =>
    some { title := t, source := so, summary := su, category := c, metrics := m, link := l }
  | _, _, _, _, _, _ => none

/-- Modelled from the spec: parse one email entry of the exchange document
back into its declared shape. -/
def decodeEmailEntry (j : Json) : Option EmailEntryView :=
  match objGet j "subject".toList, objGet j "sender".toList,
      objGet j "snippet".toList, objGet j "attachments".toList,
      objGet j "pdf_excerpt".toList with
  | some (.str su), some (.str se), some (.str sn), some (.arr atts), some p =>
    (decodeStrList atts).map
      (fun l => { subject := su, sender := se, snippet := sn, attachments := l, pdfExcerpt := p })
  | _, _, _, _, _ => none

/-- Parse every web entry of the serialized list, in order. -/
def decodeWebList : List Json → Option (List WebEntryView)
  | [] => some []
  | j :: rest =>
    match decodeWebEntry j, decodeWebList rest with
    | some v, some vs => some (v :: vs)
    | _, _ => none

/-- Parse every email entry of the serialized list, in order. -/
def decodeEmailList : List Json → Option (List EmailEntryView)
  | [] => some []
  | j :: rest =>
    match decodeEmailEntry j, decodeEmailList rest with
    | some v, some vs => some (v :: vs)
    | _, _ => none

/-- Modelled from the spec: parse a whole exchange document back into its
two ordered entry lists. -/
def decodeExchange (j : Json) : Option (List WebEntryView × List EmailEntryView) :=
  match objGet j "web_intelligence".toList, objGet j "email_intelligence".toList with
  | some (.arr ws), some (.arr es) =>
    match decodeWebList ws, decodeEmailList es with
    | some a, some b => some (a, b)
    | _, _ => none
  | _, _ => none

/-- The exchange-document view a web item is expected to round-trip to:
its title, source, category, metrics, link and 500-character-truncated
summary. -/
def viewOfItem (i : IntelligenceItem) : WebEntryView :=
  { title := i.title, source := i.source, summary := i.summary.take 500
  , category := i.category, metrics := .arr (i.metrics.map metricJson)
  , link := i.link }

/-- The exchange-document view an email item is expected to round-trip to:
its subject, sender, snippet, attachments and 1000-character-truncated
document excerpt (`None` when absent or empty). -/
def viewOfEmail (e : EmailIntelligence) : EmailEntryView :=
  { subject := e.subject, sender := e.sender, snippet := e.snippet
  , attachments := e.attachments
  , pdfExcerpt :=
      match e.pdf_content with
      | some p => if p.isEmpty then .null else .str (p.take 1000)
      | none => .null }

/-- Case-insensitive prefix test, the semantics of a literal word of an
`re.IGNORECASE` pattern. -/
def cfIsPrefix : Text → Text → Bool
  | [], _ => true
  | _ :: _, [] => false
  | d :: ds, c :: cs => (c.toLower == d) && cfIsPrefix ds cs

/-- First success of a continuation over a list of candidate suffixes (the
order in which a greedy repetition offers its split points). -/
def firstSome (k : Text → Option MRes) : List Text → Option MRes
  | [] => none
  | x :: xs => (k x) <|> firstSome k xs

/-- Candidate remainders of a greedy character-class repetition, longest
consumed run first. -/
def starDrops (p : Char → Bool) : Text → List Text
  | [] => [[]]
  | c :: t => if p c then starDrops p t ++ [c :: t] else [c :: t]

/-! Theorems. -/

theorem categorizeGo_general (l : List (Text × List Text)) (tl : Text)
    (h : ∀ p ∈ l, keywordHit p.2 tl = false) : categorizeGo l tl = "general".toList := by
  induction l with
  | nil => rfl
  | cons p rest ih =>
    obtain ⟨c, kws⟩ := p
    simp only [categorizeGo]
    rw [h ⟨c, kws⟩ (List.mem_cons_self _ _)]
    simp only [Bool.false_eq_true, if_false]
    exact ih (fun q hq => h q (List.mem_cons_of_mem _ hq))

theorem categorizeGo_first (l : List (Text × List Text)) (tl : Text) :
    ∀ (i : Nat) (h : i < l.length),
    keywordHit (l.get ⟨i, h⟩).2 tl = true →
    (∀ (j : Nat) (hj : j < i), keywordHit (l.get ⟨j, Nat.lt_trans hj h⟩).2 tl = false) →
    categorizeGo l tl = (l.get ⟨i, h⟩).1 := by
  induction l with
  | nil => intro i h; exact absurd h (Nat.not_lt_zero i)
  | cons p rest ih =>
    intro i h hhit hprev
    obtain ⟨c, kws⟩ := p
    match i with
    | 0 =>
      simp only [List.get] at hhit ⊢
      simp only [categorizeGo, hhit, if_true]
    | Nat.succ i' =>
      have h0 : keywordHit kws tl = false := hprev 0 (Nat.succ_pos i')
      simp only [categorizeGo, h0, Bool.false_eq_true, if_false]
      simp only [List.get] at hhit ⊢
      exact ih i' (Nat.lt_of_succ_lt_succ h) hhit
        (fun j hj => hprev (j + 1) (Nat.succ_lt_succ hj))

/-- Claim C2: for every text, `categorize_content` returns the first
category in the fixed declared order (customer_improvement, breakthrough,
use_case, white_paper) one of whose keywords occurs case-insensitively in
the text; with no keyword hit at all the result is `general`; the empty
text yields `general`; a text hitting several categories resolves to the
earliest one in table order. -/
theorem claim_C2_categorize_first_match (text : Text) :
    (CATEGORY_KEYWORDS.map Prod.fst =
      [ "customer_improvement".toList, "breakthrough".toList
      , "use_case".toList, "white_paper".toList ])
    ∧ categorize_content [] = "general".toList
    ∧ ((∀ p ∈ CATEGORY_KEYWORDS, keywordHit p.2 (lowerText text) = false) →
        categorize_content text = "general".toList)
    ∧ (∀ (i : Nat) (h : i < CATEGORY_KEYWORDS.length),
        keywordHit (CATEGORY_KEYWORDS.get ⟨i, h⟩).2 (lowerText text) = true →
        (∀ (j : Nat) (hj : j < i),
          keywordHit (CATEGORY_KEYWORDS.get ⟨j, Nat.lt_trans hj h⟩).2 (lowerText text) = false) →
        categorize_content text = (CATEGORY_KEYWORDS.get ⟨i, h⟩).1) := by
  refine ⟨by decide, by decide, ?_, ?_⟩
  · intro h; exact categorizeGo_general _ _ h
  · intro i h hhit hprev
    exact categorizeGo_first _ _ i h hhit hprev

theorem claim_C2_witness :
    categorize_content "A Groundbreaking Tutorial".toList = "breakthrough".toList := by
  have h := (claim_C2_categorize_first_match "A Groundbreaking Tutorial".toList).2.2.2
      1 (by decide) (by decide) (by decide)
  exact h

/-- Claim C1, counterexample: on the input
`"We reduced latency by 40% and saved 3 hours"` the extractor does NOT
return a percentage Metric with value `"40"` (the percentage pattern
requires the number to follow the verb directly, and `latency` intervenes),
so the claimed conjunction fails at this concrete input. -/
theorem claim_C1_counterexample :
    ¬ ((∃ m ∈ extract_metrics "We reduced latency by 40% and saved 3 hours".toList,
          m.type = "percentage".toList ∧ m.value = "40".toList)
        ∧ (∃ m ∈ extract_metrics "We reduced latency by 40% and saved 3 hours".toList,
            m.type = "time_savings".toList ∧ m.value = "3".toList)
        ∧ (∀ m ∈ extract_metrics "We reduced latency by 40% and saved 3 hours".toList,
            m.context = "We reduced latency by 40% and saved 3 hours".toList.take 200)) :=
  fun h => absurd h.1 (by decide)

/-- Claim C1, amended: on the input
`"We reduced latency by 40% and saved 3 hours"`, `extract_metrics` returns
exactly a `time_savings` Metric with value `"3"` and a `cost_savings`
Metric with value `"3"` — and no percentage Metric — each with `context`
equal to the first 200 characters of the input (here the whole input). -/
theorem claim_C1_amended :
    extract_metrics "We reduced latency by 40% and saved 3 hours".toList =
      [ { type := "time_savings".toList, value := "3".toList
        , context := "We reduced latency by 40% and saved 3 hours".toList.take 200 }
      , { type := "cost_savings".toList, value := "3".toList
        , context := "We reduced latency by 40% and saved 3 hours".toList.take 200 } ] := by
  decide

theorem foldl_append_flatMap {α β : Type} (f : α → List β) (l : List α) (acc : List β) :
    l.foldl (fun a x => a ++ f x) acc = acc ++ l.flatMap f := by
  induction l generalizing acc with
  | nil => simp
  | cons x xs ih => simp [List.foldl, ih, List.flatMap_cons, List.append_assoc]

theorem extract_metrics_eq_flatMap (text : Text) :
    extract_metrics text =
      METRIC_PATTERNS.flatMap
        (fun p => (findall p.2 text).map
          (fun v => { type := p.1, value := v, context := text.take 200 })) := by
  unfold extract_metrics
  rw [foldl_append_flatMap]
  simp

theorem filter_map_of_true {α β : Type} (f : α → β) (p : β → Bool) (l : List α)
    (h : ∀ a, p (f a) = true) : (l.map f).filter p = l.map f := by
  induction l with
  | nil => rfl
  | cons x xs ih => simp [List.filter, h x, ih]

theorem filter_map_of_false {α β : Type} (f : α → β) (p : β → Bool) (l : List α)
    (h : ∀ a, p (f a) = false) : (l.map f).filter p = [] := by
  induction l with
  | nil => rfl
  | cons x xs ih => simp [List.filter, h x, ih]

/-- Claim C3: for every text, the extractor output is the concatenation,
in the declared pattern order (percentage, multiplier, time_savings,
cost_savings), of the `findall` capture lists of each pattern (all
non-overlapping matches in order of occurrence); every Metric carries the
first 200 characters of the original input as its context; restricting
the output to one pattern type recovers exactly that pattern's matches;
and with no match of any pattern the output is the empty list. -/
theorem claim_C3_extract_metrics_shape (text : Text) :
    (extract_metrics text =
        (findall percentageRE text).map
          (fun v => { type := "percentage".toList, value := v, context := text.take 200 })
        ++ (findall multiplierRE text).map
          (fun v => { type := "multiplier".toList, value := v, context := text.take 200 })
        ++ (findall timeSavingsRE text).map
          (fun v => { type := "time_savings".toList, value := v, context := text.take 200 })
        ++ (findall costSavingsRE text).map
          (fun v => { type := "cost_savings".toList, value := v, context := text.take 200 }))
    ∧ (∀ m ∈ extract_metrics text, m.context = text.take 200)
    ∧ (∀ ty r, (ty, r) ∈ METRIC_PATTERNS →
        (extract_metrics text).filter (fun m => m.type == ty) =
          (findall r text).map (fun v => { type := ty, value := v, context := text.take 200 }))
    ∧ ((∀ p ∈ METRIC_PATTERNS, findall p.2 text = []) → extract_metrics text = []) := by
  have hshape := extract_metrics_eq_flatMap text
  refine ⟨?_, ?_, ?_, ?_⟩
  · rw [hshape]; simp [METRIC_PATTERNS, List.append_assoc]
  · intro m hm
    rw [hshape] at hm
    simp only [List.mem_flatMap, List.mem_map] at hm
    obtain ⟨p, _, v, _, rfl⟩ := hm
    rfl
  · intro ty r hmem
    rw [hshape]
    simp only [METRIC_PATTERNS, List.mem_cons, List.not_mem_nil, or_false,
      Prod.mk.injEq] at hmem
    have hfil : ∀ (name : Text) (r1 : RE), name = ty →
        ((findall r1 text).map
            (fun v => { type := name, value := v, context := text.take 200 : Metric })).filter
          (fun m => m.type == ty) =
        (findall r1 text).map
          (fun v => { type := ty, value := v, context := text.take 200 }) := by
      intro name r1 hname; subst hname
      exact filter_map_of_true _ _ _ (fun a => by simp)
    have hfil' : ∀ (name : Text) (r1 : RE), name ≠ ty →
        ((findall r1 text).map
            (fun v => { type := name, value := v, context := text.take 200 : Metric })).filter
          (fun m => m.type == ty) = [] := by
      intro name r1 hname
      exact filter_map_of_false _ _ _ (fun a => by simp [hname])
    rcases hmem with ⟨h1, h2⟩ | ⟨h1, h2⟩ | ⟨h1, h2⟩ | ⟨h1, h2⟩ <;> subst h1 <;> subst h2 <;>
      simp only [METRIC_PATTERNS, List.flatMap_cons, List.flatMap_nil, List.append_nil,
        List.filter_append] <;>
      rw [hfil _ _ rfl] <;>
      first
        | (rw [hfil' _ _ (by decide), hfil' _ _ (by decide), hfil' _ _ (by decide)]; simp)
  · intro hnone
    rw [hshape]
    have h1 := hnone _ (show ("percentage".toList, percentageRE) ∈ METRIC_PATTERNS by simp [METRIC_PATTERNS])
    have h2 := hnone _ (show ("multiplier".toList, multiplierRE) ∈ METRIC_PATTERNS by simp [METRIC_PATTERNS])
    have h3 := hnone _ (show ("time_savings".toList, timeSavingsRE) ∈ METRIC_PATTERNS by simp [METRIC_PATTERNS])
    have h4 := hnone _ (show ("cost_savings".toList, costSavingsRE) ∈ METRIC_PATTERNS by simp [METRIC_PATTERNS])
    simp only [METRIC_PATTERNS, List.flatMap_cons, List.flatMap_nil, List.append_nil] at *
    rw [h1, h2, h3, h4]
    simp

theorem claim_C3_witness :
    (extract_metrics "nothing numeric in here".toList = [])
    ∧ ((extract_metrics "saved 5 hours".toList).filter
          (fun m => m.type == "time_savings".toList) =
        (findall timeSavingsRE "saved 5 hours".toList).map
          (fun v => { type := "time_savings".toList, value := v
                    , context := "saved 5 hours".toList.take 200 }))
    ∧ ({ type := "time_savings".toList, value := "5".toList
       , context := "saved 5 hours".toList.take 200 : Metric }.context =
          "saved 5 hours".toList.take 200) := by
  refine ⟨(claim_C3_extract_metrics_shape _).2.2.2 (by decide),
    (claim_C3_extract_metrics_shape _).2.2.1 _ _ (by simp [METRIC_PATTERNS]), ?_⟩
  exact (claim_C3_extract_metrics_shape "saved 5 hours".toList).2.1 _ (by decide)

/-- Claim C5: on the feed path, an entry with neither summary nor
description yields an item with empty summary; a nonempty raw summary is
markup-stripped and truncated to 500 characters, and when the stripped
text is longer than 500 characters the stored summary has exactly 500;
a missing title defaults to `Untitled`; a missing link defaults to the
empty string.  None of these absences is an error: the normalizer is a
total function. -/
theorem claim_C5_feed_normalizer_defaults (stripMarkup : Text → Text)
    (now feedTitle : Text) (e : FeedEntry) :
    (e.summary = none → e.description = none →
      (normalizeFeedEntry stripMarkup now feedTitle e).summary = [])
    ∧ (rawSummary e ≠ [] →
      (normalizeFeedEntry stripMarkup now feedTitle e).summary =
        (stripMarkup (rawSummary e)).take 500)
    ∧ (rawSummary e ≠ [] → 500 < (stripMarkup (rawSummary e)).length →
      (normalizeFeedEntry stripMarkup now feedTitle e).summary.length = 500)
    ∧ (e.title = none →
      (normalizeFeedEntry stripMarkup now feedTitle e).title = "Untitled".toList)
    ∧ (e.link = none → (normalizeFeedEntry stripMarkup now feedTitle e).link = []) := by
  refine ⟨?_, ?_, ?_, ?_, ?_⟩
  · intro h1 h2
    simp [normalizeFeedEntry, rawSummary, h1, h2]
  · intro h
    simp [normalizeFeedEntry, List.isEmpty_iff, h]
  · intro h hlen
    simp only [normalizeFeedEntry, List.isEmpty_iff, h, if_false]
    rw [List.length_take]
    exact Nat.min_eq_left (Nat.le_of_lt hlen)
  · intro h
    simp [normalizeFeedEntry, h]
  · intro h
    simp [normalizeFeedEntry, h]

set_option maxRecDepth 4000 in
theorem claim_C5_witness :
    ((normalizeFeedEntry id "2025-01-01".toList "Feed".toList
        { title := none, link := none, summary := some (List.replicate 501 'a')
        , description := none, published := none }).summary.length = 500)
    ∧ ((normalizeFeedEntry id "2025-01-01".toList "Feed".toList
        { title := none, link := none, summary := none
        , description := none, published := none }).summary = [])
    ∧ ((normalizeFeedEntry id "2025-01-01".toList "Feed".toList
        { title := none, link := none, summary := none
        , description := none, published := none }).title = "Untitled".toList)
    ∧ ((normalizeFeedEntry id "2025-01-01".toList "Feed".toList
        { title := none, link := none, summary := none
        , description := none, published := none }).link = []) := by
  refine ⟨?_, ?_, ?_, ?_⟩
  · exact (claim_C5_feed_normalizer_defaults id _ _ _).2.2.1 (by decide) (by decide)
  · exact (claim_C5_feed_normalizer_defaults id _ _ _).1 rfl rfl
  · exact (claim_C5_feed_normalizer_defaults id _ _ _).2.2.2.1 rfl
  · exact (claim_C5_feed_normalizer_defaults id _ _ _).2.2.2.2 rfl

/-- Claim C8: on the page path, a fragment with no title element yields no
item; per page only the first 10 fragments are processed (so a page never
yields more than 10 items); a titled fragment whose extracted link does
not start with `http` yields an item whose link is the page url
concatenated with the extracted link; a titled fragment with no
description element yields an item with empty summary. -/
theorem claim_C8_page_normalizer (now pageUrl : Text) (frags : List PageFragment)
    (f : PageFragment) :
    (f.titleText = none → normalizePageFragment now pageUrl f = none)
    ∧ processPage now pageUrl frags = processPage now pageUrl (frags.take 10)
    ∧ (processPage now pageUrl frags).length ≤ 10
    ∧ (∀ t, f.titleText = some t →
        "http".toList.isPrefixOf (fragmentLink pageUrl f) = false →
        ∃ it, normalizePageFragment now pageUrl f = some it ∧
          it.link = pageUrl ++ fragmentLink pageUrl f)
    ∧ (∀ t, f.titleText = some t → f.summaryText = none →
        ∃ it, normalizePageFragment now pageUrl f = some it ∧ it.summary = []) := by
  refine ⟨?_, ?_, ?_, ?_, ?_⟩
  · intro h; simp [normalizePageFragment, h]
  · simp [processPage, List.take_take]
  · calc (processPage now pageUrl frags).length
        ≤ (frags.take 10).length := List.length_filterMap_le _ _
      _ ≤ 10 := List.length_take_le _ _
  · intro t ht hlink
    simp only [normalizePageFragment, ht]
    exact ⟨_, rfl, by rw [hlink]; simp⟩
  · intro t ht hs
    simp only [normalizePageFragment, ht, hs]
    exact ⟨_, rfl, rfl⟩

theorem claim_C8_witness :
    (normalizePageFragment "t0".toList "https://example.com/c".toList
        { titleText := none, linkHref := some (some "/x".toList), summaryText := none } = none)
    ∧ (∃ it, normalizePageFragment "t0".toList "https://example.com/c".toList
        { titleText := some "T".toList, linkHref := some (some "/x".toList)
        , summaryText := none } = some it ∧
        it.link = "https://example.com/c".toList ++
          fragmentLink "https://example.com/c".toList
            { titleText := some "T".toList, linkHref := some (some "/x".toList)
            , summaryText := none })
    ∧ (∃ it, normalizePageFragment "t0".toList "https://example.com/c".toList
        { titleText := some "T".toList, linkHref := some (some "/x".toList)
        , summaryText := none } = some it ∧ it.summary = []) := by
  refine ⟨?_, ?_, ?_⟩
  · exact (claim_C8_page_normalizer "t0".toList _ [] _).1 rfl
  · exact (claim_C8_page_normalizer "t0".toList _ [] _).2.2.2.1 _ rfl (by decide)
  · exact (claim_C8_page_normalizer "t0".toList _ [] _).2.2.2.2 _ rfl rfl

/-- The bound an id contributes: 1 once it is in the seen set, else 0. -/
def emailIdFlag (i : Text) (seen : List Text) : Nat :=
  if seen.contains i then 1 else 0

theorem emailIdFlag_mono (i j : Text) (seen : List Text) :
    emailIdFlag i seen ≤ emailIdFlag i (j :: seen) := by
  unfold emailIdFlag
  by_cases h : seen.contains i = true
  · have h2 : (j :: seen).contains i = true := by
      simp only [List.contains_cons, h, Bool.or_true]
    rw [if_pos h, if_pos h2]
  · rw [if_neg h]
    exact Nat.zero_le _

theorem emailIdFlag_le_one (i : Text) (seen : List Text) : emailIdFlag i seen ≤ 1 := by
  simp only [emailIdFlag]
  split <;> simp

theorem gmail_link_inj (i j : Text) (fetch : Text → GmailMessage)
    (download : Text → Text → Text → Option Text) (extractPdf : Text → Text)
    (now : Text) :
    ((mkEmailItem fetch download extractPdf now j).gmail_link == gmailLinkBase ++ i)
      = (j == i) := by
  simp only [mkEmailItem]
  by_cases h : j = i
  · subst h; simp
  · have : gmailLinkBase ++ j ≠ gmailLinkBase ++ i := by
      intro hc
      exact h (List.append_cancel_left hc)
    simp [this, h]

theorem queryGo_countP (fetch : Text → GmailMessage)
    (download : Text → Text → Text → Option Text) (extractPdf : Text → Text)
    (now i : Text) :
    ∀ (ids seen : List Text) (items : List EmailIntelligence),
    items.countP (fun it => it.gmail_link == gmailLinkBase ++ i) ≤ emailIdFlag i seen →
    (queryGo fetch download extractPdf now ids seen items).1.countP
        (fun it => it.gmail_link == gmailLinkBase ++ i) ≤
      emailIdFlag i (queryGo fetch download extractPdf now ids seen items).2 := by
  intro ids
  induction ids with
  | nil => intro seen items h; exact h
  | cons msgId rest ih =>
    intro seen items h
    simp only [queryGo]
    by_cases hseen : seen.contains msgId = true
    · simp only [hseen, if_true]
      exact ih seen items h
    · simp only [hseen, Bool.false_eq_true, if_false]
      refine ih (msgId :: seen) _ ?_
      rw [List.countP_append]
      by_cases hid : msgId = i
      · have hflag : emailIdFlag i seen = 0 := by
          rw [emailIdFlag, if_neg (hid ▸ hseen)]
        have hcnt : items.countP (fun it => it.gmail_link == gmailLinkBase ++ i) = 0 := by
          omega
        have hone : (List.countP (fun it => it.gmail_link == gmailLinkBase ++ i)
            [mkEmailItem fetch download extractPdf now msgId]) = 1 := by
          simp [List.countP_cons, gmail_link_inj, hid]
        have hflag2 : emailIdFlag i (msgId :: seen) = 1 := by
          simp [emailIdFlag, List.contains_cons, hid]
        rw [hcnt, hone, hflag2]
      · have : (List.countP (fun it => it.gmail_link == gmailLinkBase ++ i)
            [mkEmailItem fetch download extractPdf now msgId]) = 0 := by
          simp [List.countP_cons, gmail_link_inj, hid]
        rw [this]
        calc items.countP (fun it => it.gmail_link == gmailLinkBase ++ i) + 0
            ≤ emailIdFlag i seen := by simpa using h
          _ ≤ emailIdFlag i (msgId :: seen) := emailIdFlag_mono i msgId seen

theorem sweepGo_countP (fetch : Text → GmailMessage)
    (download : Text → Text → Text → Option Text) (extractPdf : Text → Text)
    (now i : Text) :
    ∀ (qs : List (List Text)) (seen : List Text) (items : List EmailIntelligence),
    items.countP (fun it => it.gmail_link == gmailLinkBase ++ i) ≤ emailIdFlag i seen →
    (sweepGo fetch download extractPdf now qs seen items).countP
        (fun it => it.gmail_link == gmailLinkBase ++ i) ≤ 1 := by
  intro qs
  induction qs with
  | nil =>
    intro seen items h
    exact Nat.le_trans h (emailIdFlag_le_one i seen)
  | cons q rest ih =>
    intro seen items h
    simp only [sweepGo]
    exact ih _ _ (queryGo_countP fetch download extractPdf now i q seen items h)

/-- Claim C6: during one mailbox sweep, at most one EmailItem is emitted
for every message identifier, even when the identifier is returned by
several search queries: the seen-identifier set is maintained for the
whole sweep, and an identifier already in it is never processed again. -/
theorem claim_C6_mailbox_dedup (fetch : Text → GmailMessage)
    (download : Text → Text → Text → Option Text) (extractPdf : Text → Text)
    (now : Text) (queryResults : List (List Text)) (i : Text) :
    (search_whitepapers fetch download extractPdf now queryResults).countP
      (fun it => it.gmail_link == gmailLinkBase ++ i) ≤ 1 := by
  exact sweepGo_countP fetch download extractPdf now i queryResults [] []
    (by simp [emailIdFlag])

theorem decodeStrList_map_str (l : List Text) :
    decodeStrList (l.map .str) = some l := by
  induction l with
  | nil => rfl
  | cons x xs ih => simp [decodeStrList, ih]

theorem decodeWebEntry_webJson (i : IntelligenceItem) :
    decodeWebEntry (webJson i) = some (viewOfItem i) := rfl

theorem decodeEmailEntry_emailJson (e : EmailIntelligence) :
    decodeEmailEntry (emailJson e) = some (viewOfEmail e) := by
  simp only [decodeEmailEntry, emailJson, objGet]
  simp [decodeStrList_map_str e.attachments, viewOfEmail]

theorem decodeWebList_map (l : List IntelligenceItem) :
    decodeWebList (l.map webJson) = some (l.map viewOfItem) := by
  induction l with
  | nil => rfl
  | cons x xs ih => simp [decodeWebList, decodeWebEntry_webJson, ih]

theorem decodeEmailList_map (l : List EmailIntelligence) :
    decodeEmailList (l.map emailJson) = some (l.map viewOfEmail) := by
  induction l with
  | nil => rfl
  | cons x xs ih => simp [decodeEmailList, decodeEmailEntry_emailJson, ih]

/-- Claim C7: the exchange document produced by
`prepare_intelligence_data` parses back into the same shape: two ordered
lists mirroring the input items in order, where each web entry carries the
item's title, source, category, metrics, link and 500-character-truncated
summary, and each email entry carries its subject, sender, snippet,
attachments and truncated document excerpt. -/
theorem claim_C7_exchange_roundtrip (web : List IntelligenceItem)
    (email : List EmailIntelligence) :
    decodeExchange (prepare_intelligence_data web email) =
      some (web.map viewOfItem, email.map viewOfEmail) := by
  simp only [decodeExchange, prepare_intelligence_data, objGet]
  simp [decodeWebList_map, decodeEmailList_map]

theorem length_filter_webJson (web : List IntelligenceItem) (c : Text) :
    ((web.map webJson).filter (fun i => categoryIs i c)).length =
      web.countP (fun i => i.category == c) := by
  induction web with
  | nil => rfl
  | cons x xs ih =>
    have hcat : categoryIs (webJson x) c = (x.category == c) := rfl
    simp only [List.map_cons, List.filter_cons, List.countP_cons, hcat]
    by_cases h : (x.category == c) = true
    · simp [h, ih]
    · simp [h, ih]

theorem suffix_append_left {α : Type} (a : List α) {l r : List α} (h : l <:+ r) :
    l <:+ a ++ r :=
  h.trans (List.suffix_append a r)

theorem fallback_decomp (now : Text) (web : List IntelligenceItem)
    (email : List EmailIntelligence) :
    fallback_synthesize now (some (prepare_intelligence_data web email)) =
      fallbackIntro now (web.map webJson).length (email.map emailJson).length
        ((web.map webJson).filter (fun i => categoryIs i "breakthrough".toList)).length
      ++ sectionLines breakthroughLine
          (((web.map webJson).filter (fun i => categoryIs i "breakthrough".toList)).take 10)
      ++ "\n## Customer Improvements (".toList
      ++ fmtNat ((web.map webJson).filter
          (fun i => categoryIs i "customer_improvement".toList)).length
      ++ " items)\n".toList
      ++ sectionLines customerLine
          (((web.map webJson).filter
            (fun i => categoryIs i "customer_improvement".toList)).take 10)
      ++ "\n## Use Cases (".toList
      ++ fmtNat ((web.map webJson).filter (fun i => categoryIs i "use_case".toList)).length
      ++ " items)\n".toList
      ++ sectionLines useCaseLine
          (((web.map webJson).filter (fun i => categoryIs i "use_case".toList)).take 10)
      ++ "\n## White Papers (".toList
      ++ fmtNat (((web.map webJson).filter
            (fun i => categoryIs i "white_paper".toList)).length
          + (email.map emailJson).length)
      ++ " items)\n".toList
      ++ sectionLines whitePaperLine
          (((web.map webJson).filter (fun i => categoryIs i "white_paper".toList)).take 5)
      ++ sectionLines emailLine ((email.map emailJson).take 5)
      ++ rawSignalCountText (web.map webJson).length (email.map emailJson).length
          ((web.map webJson).filter (fun i => categoryIs i "breakthrough".toList)).length
          ((web.map webJson).filter
            (fun i => categoryIs i "customer_improvement".toList)).length
          ((web.map webJson).filter (fun i => categoryIs i "use_case".toList)).length
          ((web.map webJson).filter (fun i => categoryIs i "white_paper".toList)).length :=
  rfl

set_option maxRecDepth 40000 in
/-- Claim C4: for an exchange document with 3 breakthrough web items, 1
use_case, 0 customer_improvement and 2 email items, the Raw Signal Count
section of the fallback report states exactly those totals, uncapped by
the per-section display limits; and on an unparseable exchange document
the fallback still produces the full report, with every fixed section
header present and every count zero. -/
theorem claim_C4_fallback_raw_counts (now : Text) (web : List IntelligenceItem)
    (email : List EmailIntelligence) :
    (web.countP (fun i => i.category == "breakthrough".toList) = 3 →
      web.countP (fun i => i.category == "use_case".toList) = 1 →
      web.countP (fun i => i.category == "customer_improvement".toList) = 0 →
      email.length = 2 →
      rawSignalCountText web.length 2 3 0 1
          (web.countP (fun i => i.category == "white_paper".toList))
        <:+ fallback_synthesize now (some (prepare_intelligence_data web email)))
    ∧ fallback_synthesize now none =
        "# Sentinel Intelligence Report\n**Date**: ".toList ++ now ++
          ("\n**Items Analyzed**: 0\n**Mode**: Rule-Based Fallback (AI unavailable)\n\n## Executive Summary\nProcessed 0 web intelligence items and 0 email items. \nThis report was generated using keyword-based categorization.\n\n## Breakthroughs (0 items)\n\n## Customer Improvements (0 items)\n\n## Use Cases (0 items)\n\n## White Papers (0 items)\n\n## Raw Signal Count\n- Total web items: 0\n- Total email items: 0\n- Breakthroughs: 0\n- Customer Improvements: 0\n- Use Cases: 0\n- White Papers: 0\n").toList := by
  constructor
  · intro h1 h2 h3 h4
    rw [fallback_decomp]
    rw [length_filter_webJson web "breakthrough".toList, h1,
      length_filter_webJson web "use_case".toList, h2,
      length_filter_webJson web "customer_improvement".toList, h3,
      length_filter_webJson web "white_paper".toList,
      List.length_map, List.length_map, h4]
    exact List.suffix_append _ _
  · calc fallback_synthesize now none
        = fallbackIntro now 0 0 0
          ++ sectionLines breakthroughLine []
          ++ "\n## Customer Improvements (".toList ++ fmtNat 0 ++ " items)\n".toList
          ++ sectionLines customerLine []
          ++ "\n## Use Cases (".toList ++ fmtNat 0 ++ " items)\n".toList
          ++ sectionLines useCaseLine []
          ++ "\n## White Papers (".toList ++ fmtNat 0 ++ " items)\n".toList
          ++ sectionLines whitePaperLine []
          ++ sectionLines emailLine []
          ++ rawSignalCountText 0 0 0 0 0 0 := rfl
      _ = _ := by
        simp only [fallbackIntro, sectionLines, rawSignalCountText, fmtNat,
          List.map_nil, List.flatten_nil, List.append_nil, List.nil_append,
          List.append_assoc]
        congr 1

set_option maxRecDepth 8000 in
theorem claim_C4_witness :
    rawSignalCountText 4 2 3 0 1 0 <:+
      fallback_synthesize "2025-01-01 00:00".toList
        (some (prepare_intelligence_data
          [ { title := "b1".toList, source := "s".toList, link := "l".toList
            , summary := "x".toList, timestamp := "t".toList
            , category := "breakthrough".toList, metrics := [], raw_content := none }
          , { title := "b2".toList, source := "s".toList, link := "l".toList
            , summary := "x".toList, timestamp := "t".toList
            , category := "breakthrough".toList, metrics := [], raw_content := none }
          , { title := "b3".toList, source := "s".toList, link := "l".toList
            , summary := "x".toList, timestamp := "t".toList
            , category := "breakthrough".toList, metrics := [], raw_content := none }
          , { title := "u1".toList, source := "s".toList, link := "l".toList
            , summary := "x".toList, timestamp := "t".toList
            , category := "use_case".toList, metrics := [], raw_content := none } ]
          [ { subject := "e1".toList, sender := "f".toList, snippet := "sn".toList
            , gmail_link := "g".toList, timestamp := "t".toList, attachments := []
            , pdf_content := none }
          , { subject := "e2".toList, sender := "f".toList, snippet := "sn".toList
            , gmail_link := "g".toList, timestamp := "t".toList, attachments := []
            , pdf_content := none } ])) := by
  exact (claim_C4_fallback_raw_counts "2025-01-01 00:00".toList
          [ { title := "b1".toList, source := "s".toList, link := "l".toList
            , summary := "x".toList, timestamp := "t".toList
            , category := "breakthrough".toList, metrics := [], raw_content := none }
          , { title := "b2".toList, source := "s".toList, link := "l".toList
            , summary := "x".toList, timestamp := "t".toList
            , category := "breakthrough".toList, metrics := [], raw_content := none }
          , { title := "b3".toList, source := "s".toList, link := "l".toList
            , summary := "x".toList, timestamp := "t".toList
            , category := "breakthrough".toList, metrics := [], raw_content := none }
          , { title := "u1".toList, source := "s".toList, link := "l".toList
            , summary := "x".toList, timestamp := "t".toList
            , category := "use_case".toList, metrics := [], raw_content := none } ]
          [ { subject := "e1".toList, sender := "f".toList, snippet := "sn".toList
            , gmail_link := "g".toList, timestamp := "t".toList, attachments := []
            , pdf_content := none }
          , { subject := "e2".toList, sender := "f".toList, snippet := "sn".toList
            , gmail_link := "g".toList, timestamp := "t".toList, attachments := []
            , pdf_content := none } ]).1
    (by decide) (by decide) (by decide) (by decide)

/-- Claim C10: in the fallback report every category section header
displays the uncapped bucket total, while the section bodies list at most
10 entries (breakthroughs, customer improvements, use cases) or 5 white
papers plus 5 email items; the White Papers header shows the white_paper
bucket size plus the total email count; hence a bucket larger than its cap
yields a header stating more items than the section lists. -/
theorem claim_C10_headers_uncapped (now : Text) (web : List IntelligenceItem)
    (email : List EmailIntelligence) :
    let wjs := web.map webJson
    let ejs := email.map emailJson
    let bt := wjs.filter (fun i => categoryIs i "breakthrough".toList)
    let cu := wjs.filter (fun i => categoryIs i "customer_improvement".toList)
    let uc := wjs.filter (fun i => categoryIs i "use_case".toList)
    let wp := wjs.filter (fun i => categoryIs i "white_paper".toList)
    (fallback_synthesize now (some (prepare_intelligence_data web email)) =
      fallbackIntro now wjs.length ejs.length bt.length
      ++ sectionLines breakthroughLine (bt.take 10)
      ++ "\n## Customer Improvements (".toList ++ fmtNat cu.length ++ " items)\n".toList
      ++ sectionLines customerLine (cu.take 10)
      ++ "\n## Use Cases (".toList ++ fmtNat uc.length ++ " items)\n".toList
      ++ sectionLines useCaseLine (uc.take 10)
      ++ "\n## White Papers (".toList ++ fmtNat (wp.length + ejs.length) ++ " items)\n".toList
      ++ sectionLines whitePaperLine (wp.take 5)
      ++ sectionLines emailLine (ejs.take 5)
      ++ rawSignalCountText wjs.length ejs.length bt.length cu.length uc.length wp.length)
    ∧ (bt.take 10).length = min 10 bt.length
    ∧ (cu.take 10).length = min 10 cu.length
    ∧ (uc.take 10).length = min 10 uc.length
    ∧ (wp.take 5).length = min 5 wp.length
    ∧ (ejs.take 5).length = min 5 ejs.length
    ∧ (10 < bt.length → (bt.take 10).length < bt.length)
    ∧ (10 < cu.length → (cu.take 10).length < cu.length)
    ∧ (10 < uc.length → (uc.take 10).length < uc.length)
    ∧ (5 < wp.length → (wp.take 5).length < wp.length)
    ∧ (5 < ejs.length → (ejs.take 5).length < ejs.length) := by
  refine ⟨fallback_decomp now web email, List.length_take _ _, List.length_take _ _,
    List.length_take _ _, List.length_take _ _, List.length_take _ _,
    ?_, ?_, ?_, ?_, ?_⟩ <;>
    (intro h; rw [List.length_take]; omega)

set_option maxRecDepth 8000 in
theorem claim_C10_witness :
    10 <
      ((List.replicate 11
          ({ title := "b".toList, source := "s".toList, link := "l".toList
           , summary := "x".toList, timestamp := "t".toList
           , category := "breakthrough".toList, metrics := [], raw_content := none }
            : IntelligenceItem)).map webJson
        |>.filter (fun i => categoryIs i "breakthrough".toList)).length
    ∧ (((List.replicate 11
          ({ title := "b".toList, source := "s".toList, link := "l".toList
           , summary := "x".toList, timestamp := "t".toList
           , category := "breakthrough".toList, metrics := [], raw_content := none }
            : IntelligenceItem)).map webJson
        |>.filter (fun i => categoryIs i "breakthrough".toList)).take 10).length <
      ((List.replicate 11
          ({ title := "b".toList, source := "s".toList, link := "l".toList
           , summary := "x".toList, timestamp := "t".toList
           , category := "breakthrough".toList, metrics := [], raw_content := none }
            : IntelligenceItem)).map webJson
        |>.filter (fun i => categoryIs i "breakthrough".toList)).length := by
  constructor
  · decide
  · exact (claim_C10_headers_uncapped "d".toList
      (List.replicate 11
          ({ title := "b".toList, source := "s".toList, link := "l".toList
           , summary := "x".toList, timestamp := "t".toList
           , category := "breakthrough".toList, metrics := [], raw_content := none }
            : IntelligenceItem)) []).2.2.2.2.2.2.1 (by decide)

theorem orElse_some_inv {x y : Option MRes} {r : MRes} (h : (x <|> y) = some r) :
    x = some r ∨ (x = none ∧ y = some r) := by
  cases x with
  | none => right; exact ⟨rfl, by simpa using h⟩
  | some a => left; simpa using h

theorem orElse_assoc_mres (x y z : Option MRes) :
    ((x <|> y) <|> z) = (x <|> (y <|> z)) := by
  cases x <;> simp

theorem firstSome_cons (k : Text → Option MRes) (x : Text) (xs : List Text) :
    firstSome k (x :: xs) = ((k x) <|> firstSome k xs) := rfl

theorem firstSome_cons_some {k : Text → Option MRes} {x : Text} {xs : List Text}
    {r : MRes} (h : k x = some r) : firstSome k (x :: xs) = some r := by
  simp [firstSome, h]

theorem firstSome_some_inv {k : Text → Option MRes} :
    ∀ {l : List Text} {r : MRes}, firstSome k l = some r → ∃ x ∈ l, k x = some r := by
  intro l
  induction l with
  | nil => intro r h; simp [firstSome] at h
  | cons x xs ih =>
    intro r h
    rcases orElse_some_inv h with h1 | ⟨_, h2⟩
    · exact ⟨x, List.mem_cons_self _ _, h1⟩
    · obtain ⟨y, hy, hk⟩ := ih h2
      exact ⟨y, List.mem_cons_of_mem _ hy, hk⟩

theorem firstSome_append (k : Text → Option MRes) (l1 l2 : List Text) :
    firstSome k (l1 ++ l2) = ((firstSome k l1) <|> firstSome k l2) := by
  induction l1 with
  | nil => simp [firstSome]
  | cons x xs ih => simp only [List.cons_append, firstSome_cons, ih, orElse_assoc_mres]

theorem starDrops_decomp (p : Char → Bool) :
    ∀ {s x : Text}, x ∈ starDrops p s → ∃ w, s = w ++ x ∧ w.all p = true := by
  intro s
  induction s with
  | nil =>
    intro x hx
    simp [starDrops] at hx
    exact ⟨[], by simp [hx]⟩
  | cons c t ih =>
    intro x hx
    simp only [starDrops] at hx
    by_cases hp : p c = true
    · rw [if_pos hp] at hx
      rcases List.mem_append.mp hx with h1 | h2
      · obtain ⟨w, hw, hall⟩ := ih h1
        exact ⟨c :: w, by simp [hw], by simp [hall, hp]⟩
      · simp at h2
        exact ⟨[], by simp [h2]⟩
    · rw [if_neg hp] at hx
      simp at hx
      exact ⟨[], by simp [hx]⟩

theorem starDrops_of_run (p : Char → Bool) :
    ∀ (w x : Text), w.all p = true →
    (x = [] ∨ ∃ c t, x = c :: t ∧ p c = false) →
    ∃ l, starDrops p (w ++ x) = x :: l := by
  intro w
  induction w with
  | nil =>
    intro x _ hx
    rcases hx with rfl | ⟨c, t, rfl, hc⟩
    · exact ⟨[], rfl⟩
    · exact ⟨[], by simp [starDrops, hc]⟩
  | cons a w' ih =>
    intro x hall hx
    rw [List.all_cons, Bool.and_eq_true] at hall
    have ha : p a = true := hall.1
    have hw' : w'.all p = true := hall.2
    obtain ⟨l, hl⟩ := ih x hw' hx
    exact ⟨l ++ [a :: (w' ++ x)], by simp [starDrops, ha, hl]⟩

theorem reMatch_eps (f : Nat) (s : Text) (k : Text → Option MRes) :
    reMatch (f + 1) .eps s k = k s := rfl

theorem reMatch_pred_cons (f : Nat) (p : Char → Bool) (c : Char) (t : Text)
    (k : Text → Option MRes) :
    reMatch (f + 1) (.pred p) (c :: t) k = if p c then k t else none := rfl

theorem reMatch_pred_nil (f : Nat) (p : Char → Bool) (k : Text → Option MRes) :
    reMatch (f + 1) (.pred p) [] k = none := rfl

theorem reMatch_cat (f : Nat) (a b : RE) (s : Text) (k : Text → Option MRes) :
    reMatch (f + 1) (.cat a b) s k = reMatch f a s (fun s1 => reMatch f b s1 k) := rfl

theorem reMatch_alt (f : Nat) (a b : RE) (s : Text) (k : Text → Option MRes) :
    reMatch (f + 1) (.alt a b) s k = ((reMatch f a s k) <|> reMatch f b s k) := rfl

theorem reMatch_opt (f : Nat) (a : RE) (s : Text) (k : Text → Option MRes) :
    reMatch (f + 1) (.opt a) s k = ((reMatch f a s k) <|> k s) := rfl

theorem reMatch_group (f : Nat) (a : RE) (s : Text) (k : Text → Option MRes) :
    reMatch (f + 1) (.group a) s k =
      reMatch f a s (fun s1 =>
        (k s1).map (fun r => { r with grp := s.take (s.length - s1.length) })) := rfl

theorem reMatch_star (f : Nat) (a : RE) (s : Text) (k : Text → Option MRes) :
    reMatch (f + 1) (.star a) s k =
      ((reMatch f a s (fun s1 =>
        if s1.length < s.length then reMatch f (.star a) s1 k else none)) <|> k s) := rfl

theorem reMatch_zero (re : RE) (s : Text) (k : Text → Option MRes) :
    reMatch 0 re s k = none := rfl

theorem reMatch_litChar_cons (f : Nat) (d c : Char) (t : Text)
    (k : Text → Option MRes) :
    reMatch (f + 1) (litChar d) (c :: t) k = if (c.toLower == d) then k t else none := rfl

theorem reMatch_litChar_nil (f : Nat) (d : Char) (k : Text → Option MRes) :
    reMatch (f + 1) (litChar d) [] k = none := rfl

theorem reMatch_litFold_exact :
    ∀ (ds s : Text) (k : Text → Option MRes) (f : Nat), 2 * ds.length + 2 ≤ f →
    reMatch f (ds.foldr (fun d r => RE.cat (litChar d) r) .eps) s k =
      if cfIsPrefix ds s then k (s.drop ds.length) else none := by
  intro ds
  induction ds with
  | nil =>
    intro s k f hf
    obtain ⟨f1, rfl⟩ : ∃ f1, f = f1 + 1 := ⟨f - 1, by omega⟩
    simp [List.foldr, reMatch_eps, cfIsPrefix]
  | cons d ds ih =>
    intro s k f hf
    obtain ⟨f1, rfl⟩ : ∃ f1, f = f1 + 1 := ⟨f - 1, by omega⟩
    obtain ⟨f2, rfl⟩ : ∃ f2, f1 = f2 + 1 := ⟨f1 - 1, by omega⟩
    simp only [List.foldr]
    rw [reMatch_cat]
    cases s with
    | nil => simp [reMatch_litChar_nil, cfIsPrefix]
    | cons c t =>
      rw [reMatch_litChar_cons]
      by_cases hc : (c.toLower == d) = true
      · rw [if_pos hc]
        rw [ih t k (f2 + 1) (by simp at hf ⊢; omega)]
        simp [cfIsPrefix, hc]
      · rw [if_neg hc]
        simp [cfIsPrefix, hc]

theorem reMatch_lit_exact (w : String) (s : Text) (k : Text → Option MRes) (f : Nat)
    (hf : 2 * w.toList.length + 2 ≤ f) :
    reMatch f (lit w) s k =
      if cfIsPrefix w.toList s then k (s.drop w.toList.length) else none := by
  rw [lit]
  exact reMatch_litFold_exact w.toList s k f hf

theorem reMatch_starPred_exact (p : Char → Bool) :
    ∀ (s : Text) (k : Text → Option MRes) (f : Nat), 2 * s.length + 2 ≤ f →
    reMatch f (.star (.pred p)) s k = firstSome k (starDrops p s) := by
  intro s
  induction s with
  | nil =>
    intro k f hf
    obtain ⟨f1, rfl⟩ : ∃ f1, f = f1 + 1 := ⟨f - 1, by omega⟩
    obtain ⟨f0, rfl⟩ : ∃ f0, f1 = f0 + 1 := ⟨f1 - 1, by omega⟩
    rw [reMatch_star]
    simp [reMatch_pred_nil, starDrops, firstSome]
  | cons c t ih =>
    intro k f hf
    obtain ⟨f1, rfl⟩ : ∃ f1, f = f1 + 1 := ⟨f - 1, by omega⟩
    obtain ⟨f0, rfl⟩ : ∃ f0, f1 = f0 + 1 := ⟨f1 - 1, by omega⟩
    rw [reMatch_star, reMatch_pred_cons]
    by_cases hp : p c = true
    · rw [if_pos hp]
      have hlt : t.length < (c :: t).length := by simp
      rw [if_pos hlt]
      rw [ih k (f0 + 1) (by simp at hf ⊢; omega)]
      simp only [starDrops, if_pos hp, firstSome_append]
      simp [firstSome]
    · rw [if_neg hp]
      simp [starDrops, hp, firstSome]

theorem reMatch_many1_nil (p : Char → Bool) (k : Text → Option MRes) (f : Nat)
    (hf : 2 ≤ f) : reMatch f (many1 p) [] k = none := by
  obtain ⟨f1, rfl⟩ : ∃ f1, f = f1 + 1 := ⟨f - 1, by omega⟩
  rw [many1, reMatch_cat]
  obtain ⟨f0, rfl⟩ : ∃ f0, f1 = f0 + 1 := ⟨f1 - 1, by omega⟩
  exact reMatch_pred_nil f0 p _

theorem reMatch_many1_cons (p : Char → Bool) (c : Char) (t : Text)
    (k : Text → Option MRes) (f : Nat) (hf : 2 * t.length + 6 ≤ f) :
    reMatch f (many1 p) (c :: t) k =
      if p c then firstSome k (starDrops p t) else none := by
  obtain ⟨f1, rfl⟩ : ∃ f1, f = f1 + 1 := ⟨f - 1, by omega⟩
  obtain ⟨f0, rfl⟩ : ∃ f0, f1 = f0 + 1 := ⟨f1 - 1, by omega⟩
  rw [many1, reMatch_cat, reMatch_pred_cons]
  by_cases hp : p c = true
  · rw [if_pos hp, if_pos hp]
    exact reMatch_starPred_exact p t k (f0 + 1) (by omega)
  · rw [if_neg hp, if_neg hp]

theorem cfIsPrefix_decomp :
    ∀ {ds s : Text}, cfIsPrefix ds s = true →
    ∃ u, s = u ++ s.drop ds.length ∧ lowerText u = ds ∧ u.length = ds.length := by
  intro ds
  induction ds with
  | nil => intro s _; exact ⟨[], by simp, rfl, rfl⟩
  | cons d ds ih =>
    intro s h
    cases s with
    | nil => simp [cfIsPrefix] at h
    | cons c t =>
      rw [cfIsPrefix, Bool.and_eq_true] at h
      obtain ⟨u, hu, hlow, hlen⟩ := ih h.2
      refine ⟨c :: u, ?_, ?_, by simp [hlen]⟩
      · simpa [List.drop] using congrArg (c :: ·) hu
      · simp only [lowerText, List.map_cons] at hlow ⊢
        rw [hlow]
        have := h.1
        simp only [beq_iff_eq] at this
        rw [this]

theorem cfIsPrefix_of_lower :
    ∀ {u : Text} (v : Text), cfIsPrefix (lowerText u) (u ++ v) = true ∧
      (u ++ v).drop (lowerText u).length = v := by
  intro u
  induction u with
  | nil => intro v; simp [lowerText, cfIsPrefix]
  | cons c u ih =>
    intro v
    have h2 := ih v
    constructor
    · rw [lowerText, List.map_cons, List.cons_append, cfIsPrefix, Bool.and_eq_true]
      exact ⟨by simp, h2.1⟩
    · rw [lowerText, List.map_cons, List.cons_append, List.length_cons, List.drop_succ_cons]
      exact h2.2

theorem reMatch_calls_sound :
    ∀ (f : Nat) (re : RE) (s : Text) (k : Text → Option MRes) (r : MRes),
    reMatch f re s k = some r →
    ∃ s1, s1 <:+ s ∧ ∃ r1, k s1 = some r1 ∧ r1.rest = r.rest := by
  intro f
  induction f with
  | zero => intro re s k r h; rw [reMatch_zero] at h; exact absurd h (by simp)
  | succ f ih =>
    intro re s k r h
    cases re with
    | eps => exact ⟨s, List.suffix_refl s, r, h, rfl⟩
    | pred p =>
      cases s with
      | nil => rw [reMatch_pred_nil] at h; exact absurd h (by simp)
      | cons c t =>
        rw [reMatch_pred_cons] at h
        by_cases hp : p c = true
        · rw [if_pos hp] at h
          exact ⟨t, List.suffix_cons c t, r, h, rfl⟩
        · rw [if_neg hp] at h; exact absurd h (by simp)
    | cat a b =>
      rw [reMatch_cat] at h
      obtain ⟨s1, hs1, r1, hk1, hr1⟩ := ih a s _ r h
      obtain ⟨s2, hs2, r2, hk2, hr2⟩ := ih b s1 k r1 hk1
      exact ⟨s2, hs2.trans hs1, r2, hk2, by rw [hr2, hr1]⟩
    | alt a b =>
      rw [reMatch_alt] at h
      rcases orElse_some_inv h with h1 | ⟨_, h2⟩
      · exact ih a s k r h1
      · exact ih b s k r h2
    | opt a =>
      rw [reMatch_opt] at h
      rcases orElse_some_inv h with h1 | ⟨_, h2⟩
      · exact ih a s k r h1
      · exact ⟨s, List.suffix_refl s, r, h2, rfl⟩
    | star a =>
      rw [reMatch_star] at h
      rcases orElse_some_inv h with h1 | ⟨_, h2⟩
      · obtain ⟨s1, hs1, r1, hk1, hr1⟩ := ih a s _ r h1
        by_cases hlt : s1.length < s.length
        · rw [if_pos hlt] at hk1
          obtain ⟨s2, hs2, r2, hk2, hr2⟩ := ih (.star a) s1 k r1 hk1
          exact ⟨s2, hs2.trans hs1, r2, hk2, by rw [hr2, hr1]⟩
        · rw [if_neg hlt] at hk1; exact absurd hk1 (by simp)
      · exact ⟨s, List.suffix_refl s, r, h2, rfl⟩
    | group a =>
      rw [reMatch_group] at h
      obtain ⟨s1, hs1, r1, hk1, hr1⟩ := ih a s _ r h
      rw [Option.map_eq_some'] at hk1
      obtain ⟨r0, hk0, hr0⟩ := hk1
      refine ⟨s1, hs1, r0, hk0, ?_⟩
      rw [← hr1, ← hr0]

theorem matchAt_rest_suffix {re : RE} {s : Text} {r : MRes}
    (h : matchAt re s = some r) : r.rest <:+ s := by
  obtain ⟨s1, hs1, r1, hk1, hr1⟩ := reMatch_calls_sound _ _ _ _ _ h
  simp only [Option.some.injEq] at hk1
  rw [← hr1, ← hk1]
  exact hs1

theorem findallAux_succ (f : Nat) (re : RE) (s : Text) :
    findallAux (f + 1) re s =
      (match matchAt re s with
       | some r =>
         if r.rest.length < s.length then r.grp :: findallAux f re r.rest
         else
           match s with
           | [] => [r.grp]
           | _ :: t => r.grp :: findallAux f re t
       | none =>
         match s with
         | [] => []
         | _ :: t => findallAux f re t) := rfl

theorem findallAux_fuel :
    ∀ (n : Nat) (f : Nat) (re : RE) (s : Text), s.length < n → s.length + 1 ≤ f →
    findallAux f re s = findallAux (s.length + 1) re s := by
  intro n
  induction n with
  | zero => intro f re s h; omega
  | succ n ih =>
    intro f re s hn hf
    obtain ⟨f1, rfl⟩ : ∃ f1, f = f1 + 1 := ⟨f - 1, by omega⟩
    cases hm : matchAt re s with
    | some r =>
      simp only [findallAux_succ, hm]
      by_cases hlt : r.rest.length < s.length
      · rw [if_pos hlt, if_pos hlt]
        rw [ih f1 re r.rest (by omega) (by omega),
          ih s.length re r.rest (by omega) (by omega)]
      · rw [if_neg hlt, if_neg hlt]
        cases s with
        | nil => rfl
        | cons c t =>
          simp only
          have hn2 : t.length < n := by simp only [List.length_cons] at hn; omega
          have hf2 : t.length + 1 ≤ f1 := by simp only [List.length_cons] at hf; omega
          rw [ih f1 re t hn2 hf2,
            ih (c :: t).length re t hn2 (by simp only [List.length_cons]; omega)]
    | none =>
      simp only [findallAux_succ, hm]
      cases s with
      | nil => rfl
      | cons c t =>
        simp only
        have hn2 : t.length < n := by simp only [List.length_cons] at hn; omega
        have hf2 : t.length + 1 ≤ f1 := by simp only [List.length_cons] at hf; omega
        rw [ih f1 re t hn2 hf2,
          ih (c :: t).length re t hn2 (by simp only [List.length_cons]; omega)]

theorem findall_cons_match {re : RE} {s : Text} {r : MRes}
    (h : matchAt re s = some r) (hlt : r.rest.length < s.length) :
    findall re s = r.grp :: findall re r.rest := by
  rw [findall, findallAux_succ]
  simp only [h, hlt, if_true]
  rw [findall, findallAux_fuel (s.length + 1) s.length re r.rest (by omega) (by omega)]

theorem findall_cons_nomatch {re : RE} {c : Char} {t : Text}
    (h : matchAt re (c :: t) = none) : findall re (c :: t) = findall re t := by
  rw [findall, findallAux_succ]
  simp only [h]
  rw [findall, findallAux_fuel (c :: t).length (c :: t).length re t (by simp) (by simp)]

theorem findall_sound :
    ∀ (fuel : Nat) (re : RE) (s : Text) (v : Text), v ∈ findallAux fuel re s →
    ∃ s', s' <:+ s ∧ ∃ r, matchAt re s' = some r ∧ r.grp = v := by
  intro fuel
  induction fuel with
  | zero => intro re s v h; simp [findallAux] at h
  | succ fuel ih =>
    intro re s v h
    rw [findallAux_succ] at h
    cases hm : matchAt re s with
    | some r =>
      rw [hm] at h
      simp only at h
      by_cases hlt : r.rest.length < s.length
      · rw [if_pos hlt] at h
        rcases List.mem_cons.mp h with rfl | h2
        · exact ⟨s, List.suffix_refl s, r, hm, rfl⟩
        · obtain ⟨s', hs', hrest⟩ := ih re r.rest v h2
          exact ⟨s', hs'.trans (matchAt_rest_suffix hm), hrest⟩
      · rw [if_neg hlt] at h
        cases s with
        | nil =>
          simp at h
          exact ⟨[], List.suffix_refl [], r, hm, h.symm⟩
        | cons c t =>
          rcases List.mem_cons.mp h with rfl | h2
          · exact ⟨c :: t, List.suffix_refl _, r, hm, rfl⟩
          · obtain ⟨s', hs', hrest⟩ := ih re t v h2
            exact ⟨s', hs'.trans (List.suffix_cons c t), hrest⟩
    | none =>
      rw [hm] at h
      simp only at h
      cases s with
      | nil => simp at h
      | cons c t =>
        obtain ⟨s', hs', hrest⟩ := ih re t v h
        exact ⟨s', hs'.trans (List.suffix_cons c t), hrest⟩

theorem findall_sound_top {re : RE} {s : Text} {v : Text} (h : v ∈ findall re s) :
    ∃ s', s' <:+ s ∧ ∃ r, matchAt re s' = some r ∧ r.grp = v :=
  findall_sound _ re s v h

theorem lowerText_append (a b : Text) :
    lowerText (a ++ b) = lowerText a ++ lowerText b := List.map_append _ a b

theorem wordOptSound {w1 w2 : String} {f : Nat} {s : Text} {k : Text → Option MRes}
    {r : MRes} (hf : 2 * (w1.toList.length + w2.toList.length) + 8 ≤ f)
    (h : reMatch f (.cat (lit w1) (.opt (lit w2))) s k = some r) :
    ∃ u s1, s = u ++ s1 ∧
      (lowerText u = w1.toList ∨ lowerText u = w1.toList ++ w2.toList) ∧
      k s1 = some r := by
  obtain ⟨f1, rfl⟩ : ∃ f1, f = f1 + 1 := ⟨f - 1, by omega⟩
  rw [reMatch_cat] at h
  rw [reMatch_lit_exact w1 s _ f1 (by omega)] at h
  by_cases hpre : cfIsPrefix w1.toList s = true
  · rw [if_pos hpre] at h
    obtain ⟨f2, rfl⟩ : ∃ f2, f1 = f2 + 1 := ⟨f1 - 1, by omega⟩
    rw [reMatch_opt] at h
    obtain ⟨u1, hs, hlow1, hlen1⟩ := cfIsPrefix_decomp hpre
    rcases orElse_some_inv h with h1 | ⟨_, h2⟩
    · rw [reMatch_lit_exact w2 _ _ f2 (by omega)] at h1
      by_cases hpre2 : cfIsPrefix w2.toList (s.drop w1.toList.length) = true
      · rw [if_pos hpre2] at h1
        obtain ⟨u2, hs2, hlow2, hlen2⟩ := cfIsPrefix_decomp hpre2
        refine ⟨u1 ++ u2, (s.drop w1.toList.length).drop w2.toList.length, ?_, ?_, h1⟩
        · rw [List.append_assoc, ← hs2, ← hs]
        · rw [lowerText_append, hlow1, hlow2]
          exact Or.inr rfl
      · rw [if_neg hpre2] at h1
        exact absurd h1 (by simp)
    · exact ⟨u1, s.drop w1.toList.length, hs, Or.inl hlow1, h2⟩
  · rw [if_neg hpre] at h
    exact absurd h (by simp)

theorem wordSound {w : String} {f : Nat} {s : Text} {k : Text → Option MRes}
    {r : MRes} (hf : 2 * w.toList.length + 2 ≤ f)
    (h : reMatch f (lit w) s k = some r) :
    ∃ u s1, s = u ++ s1 ∧ lowerText u = w.toList ∧ k s1 = some r := by
  rw [reMatch_lit_exact w s _ f hf] at h
  by_cases hpre : cfIsPrefix w.toList s = true
  · rw [if_pos hpre] at h
    obtain ⟨u, hs, hlow, _⟩ := cfIsPrefix_decomp hpre
    exact ⟨u, s.drop w.toList.length, hs, hlow, h⟩
  · rw [if_neg hpre] at h
    exact absurd h (by simp)

theorem verbSound {f : Nat} {s : Text} {k : Text → Option MRes} {r : MRes}
    (hf : 40 ≤ f) (h : reMatch f saveVerbsRE s k = some r) :
    ∃ u s1, s = u ++ s1 ∧
      (lowerText u = "save".toList ∨ lowerText u = "saved".toList ∨
       lowerText u = "reduce".toList ∨ lowerText u = "reduced".toList) ∧
      k s1 = some r := by
  rw [show saveVerbsRE = .alt (.cat (lit "save") (.opt (lit "d")))
      (.cat (lit "reduce") (.opt (lit "d"))) from rfl] at h
  obtain ⟨f1, rfl⟩ : ∃ f1, f = f1 + 1 := ⟨f - 1, by omega⟩
  rw [reMatch_alt] at h
  rcases orElse_some_inv h with h1 | ⟨_, h2⟩
  · obtain ⟨u, s1, hs, hlow, hk⟩ := wordOptSound (by simp; omega) h1
    refine ⟨u, s1, hs, ?_, hk⟩
    rcases hlow with hl | hl
    · exact Or.inl hl
    · exact Or.inr (Or.inl hl)
  · obtain ⟨u, s1, hs, hlow, hk⟩ := wordOptSound (by simp; omega) h2
    refine ⟨u, s1, hs, ?_, hk⟩
    rcases hlow with hl | hl
    · exact Or.inr (Or.inr (Or.inl hl))
    · exact Or.inr (Or.inr (Or.inr hl))

theorem litCharSound {d : Char} {f : Nat} {s : Text} {k : Text → Option MRes}
    {r : MRes} (h : reMatch f (litChar d) s k = some r) :
    ∃ c t, s = c :: t ∧ c.toLower = d ∧ k t = some r := by
  obtain ⟨f1, rfl⟩ : ∃ f1, f = f1 + 1 := by
    cases f with
    | zero => rw [reMatch_zero] at h; exact absurd h (by simp)
    | succ f1 => exact ⟨f1, rfl⟩
  cases s with
  | nil => rw [reMatch_litChar_nil] at h; exact absurd h (by simp)
  | cons c t =>
    rw [reMatch_litChar_cons] at h
    by_cases hc : (c.toLower == d) = true
    · rw [if_pos hc] at h
      exact ⟨c, t, rfl, by simpa using hc, h⟩
    · rw [if_neg hc] at h
      exact absurd h (by simp)

theorem predSound {p : Char → Bool} {f : Nat} {s : Text} {k : Text → Option MRes}
    {r : MRes} (h : reMatch f (.pred p) s k = some r) :
    ∃ c t, s = c :: t ∧ p c = true ∧ k t = some r := by
  obtain ⟨f1, rfl⟩ : ∃ f1, f = f1 + 1 := by
    cases f with
    | zero => rw [reMatch_zero] at h; exact absurd h (by simp)
    | succ f1 => exact ⟨f1, rfl⟩
  cases s with
  | nil => rw [reMatch_pred_nil] at h; exact absurd h (by simp)
  | cons c t =>
    rw [reMatch_pred_cons] at h
    by_cases hc : p c = true
    · rw [if_pos hc] at h
      exact ⟨c, t, rfl, hc, h⟩
    · rw [if_neg hc] at h
      exact absurd h (by simp)

theorem many1Sound {p : Char → Bool} {f : Nat} {s : Text} {k : Text → Option MRes}
    {r : MRes} (hf : 2 * s.length + 6 ≤ f) (h : reMatch f (many1 p) s k = some r) :
    ∃ w s1, s = w ++ s1 ∧ w ≠ [] ∧ w.all p = true ∧ k s1 = some r := by
  cases s with
  | nil =>
    rw [reMatch_many1_nil p k f (by omega)] at h
    exact absurd h (by simp)
  | cons c t =>
    rw [reMatch_many1_cons p c t k f (by simp at hf ⊢; omega)] at h
    by_cases hc : p c = true
    · rw [if_pos hc] at h
      obtain ⟨x, hx, hk⟩ := firstSome_some_inv h
      obtain ⟨w, hw, hall⟩ := starDrops_decomp p hx
      exact ⟨c :: w, x, by simp [hw], by simp, by simp [hall, hc], hk⟩
    · rw [if_neg hc] at h
      exact absurd h (by simp)

theorem ws0Sound {f : Nat} {s : Text} {k : Text → Option MRes} {r : MRes}
    (hf : 2 * s.length + 2 ≤ f) (h : reMatch f ws0 s k = some r) :
    ∃ w s1, s = w ++ s1 ∧ w.all isSpaceChar = true ∧ k s1 = some r := by
  rw [ws0, reMatch_starPred_exact isSpaceChar s k f hf] at h
  obtain ⟨x, hx, hk⟩ := firstSome_some_inv h
  obtain ⟨w, hw, hall⟩ := starDrops_decomp isSpaceChar hx
  exact ⟨w, x, hw, hall, hk⟩

theorem starClassSound {a : RE} {χ : Char → Bool}
    (hbody : ∀ (f : Nat) (s : Text) (k : Text → Option MRes) (r : MRes),
      reMatch f a s k = some r →
      ∃ u s1, s = u ++ s1 ∧ u.all χ = true ∧ k s1 = some r) :
    ∀ (f : Nat) (s : Text) (k : Text → Option MRes) (r : MRes),
    reMatch f (.star a) s k = some r →
    ∃ u s1, s = u ++ s1 ∧ u.all χ = true ∧ k s1 = some r := by
  intro f
  induction f with
  | zero => intro s k r h; rw [reMatch_zero] at h; exact absurd h (by simp)
  | succ f ih =>
    intro s k r h
    rw [reMatch_star] at h
    rcases orElse_some_inv h with h1 | ⟨_, h2⟩
    · obtain ⟨u1, s1, hs1, hall1, hk1⟩ := hbody f s _ r h1
      by_cases hlt : s1.length < s.length
      · rw [if_pos hlt] at hk1
        obtain ⟨u2, s2, hs2, hall2, hk2⟩ := ih s1 k r hk1
        refine ⟨u1 ++ u2, s2, ?_, ?_, hk2⟩
        · rw [hs1, hs2, List.append_assoc]
        · simp [List.all_append, hall1, hall2]
      · rw [if_neg hlt] at hk1
        exact absurd hk1 (by simp)
    · exact ⟨[], s, rfl, rfl, h2⟩

theorem timeNumSound {f : Nat} {s : Text} {k : Text → Option MRes} {r : MRes}
    (hf : 2 * s.length + 20 ≤ f) (h : reMatch f numberRE s k = some r) :
    ∃ d1 dtail s1, s = d1 ++ dtail ++ s1 ∧ d1 ≠ [] ∧ d1.all isDigitChar = true ∧
      (dtail = [] ∨ ∃ dc d2, dtail = dc :: d2 ∧ dc.toLower = '.' ∧ d2 ≠ [] ∧
        d2.all isDigitChar = true) ∧
      k s1 = some r := by
  obtain ⟨f1, rfl⟩ : ∃ f1, f = f1 + 1 := ⟨f - 1, by omega⟩
  rw [numberRE, reMatch_cat] at h
  obtain ⟨d1, s', hs, hne, hdig, hK⟩ := many1Sound (by omega) h
  have hlen' : s'.length ≤ s.length := by
    have := congrArg List.length hs
    simp [List.length_append] at this
    omega
  obtain ⟨f2, rfl⟩ : ∃ f2, f1 = f2 + 1 := ⟨f1 - 1, by omega⟩
  rw [reMatch_opt] at hK
  rcases orElse_some_inv hK with h1 | ⟨_, h2⟩
  · obtain ⟨f3, rfl⟩ : ∃ f3, f2 = f3 + 1 := ⟨f2 - 1, by omega⟩
    rw [reMatch_cat] at h1
    obtain ⟨dc, t', hs', hdc, hK2⟩ := litCharSound h1
    have hlent : t'.length ≤ s.length := by
      have := congrArg List.length hs'
      simp [List.length_cons] at this
      omega
    obtain ⟨d2, s1, ht', hne2, hdig2, hk⟩ := many1Sound (by omega) hK2
    refine ⟨d1, dc :: d2, s1, ?_, hne, hdig, ?_, hk⟩
    · rw [hs, hs', ht']
      simp
    · exact Or.inr ⟨dc, d2, rfl, hdc, hne2, hdig2⟩
  · exact ⟨d1, [], s', by simpa using hs, hne, hdig, Or.inl rfl, h2⟩

theorem all_weaken {p q : Char → Bool} (himp : ∀ c, p c = true → q c = true) :
    ∀ {w : Text}, w.all p = true → w.all q = true := by
  intro w hw
  rw [List.all_eq_true] at hw ⊢
  exact fun c hc => himp c (hw c hc)

theorem costNumSound {f : Nat} {s : Text} {k : Text → Option MRes} {r : MRes}
    (hf : 2 * s.length + 30 ≤ f) (h : reMatch f costNumberRE s k = some r) :
    ∃ n s1, s = n ++ s1 ∧ n ≠ [] ∧
      n.all (fun c => isDigitChar c || (c.toLower == '.') || (c.toLower == ',')) = true ∧
      k s1 = some r := by
  obtain ⟨f1, rfl⟩ : ∃ f1, f = f1 + 1 := ⟨f - 1, by omega⟩
  rw [costNumberRE, reMatch_cat] at h
  obtain ⟨d1, s', hs, hne, hdig, hK⟩ := many1Sound (by omega) h
  have hlen' : s'.length ≤ s.length := by
    have := congrArg List.length hs
    simp [List.length_append] at this
    omega
  obtain ⟨f2, rfl⟩ : ∃ f2, f1 = f2 + 1 := ⟨f1 - 1, by omega⟩
  rw [reMatch_cat] at hK
  have hbody : ∀ (g : Nat) (u : Text) (k1 : Text → Option MRes) (r1 : MRes),
      reMatch g (.cat (litChar ',')
        (.cat (.pred isDigitChar) (.cat (.pred isDigitChar) (.pred isDigitChar)))) u k1 =
        some r1 →
      ∃ w u1, u = w ++ u1 ∧
        w.all (fun c => isDigitChar c || (c.toLower == '.') || (c.toLower == ',')) = true ∧
        k1 u1 = some r1 := by
    intro g u k1 r1 hb
    obtain ⟨g1, rfl⟩ : ∃ g1, g = g1 + 1 := by
      cases g with
      | zero => rw [reMatch_zero] at hb; exact absurd hb (by simp)
      | succ g1 => exact ⟨g1, rfl⟩
    rw [reMatch_cat] at hb
    obtain ⟨c1, t1, hu, hc1, hb1⟩ := litCharSound hb
    obtain ⟨g2, rfl⟩ : ∃ g2, g1 = g2 + 1 := by
      cases g1 with
      | zero => rw [reMatch_zero] at hb1; exact absurd hb1 (by simp)
      | succ g2 => exact ⟨g2, rfl⟩
    rw [reMatch_cat] at hb1
    obtain ⟨c2, t2, ht1, hc2, hb2⟩ := predSound hb1
    obtain ⟨g3, rfl⟩ : ∃ g3, g2 = g3 + 1 := by
      cases g2 with
      | zero => rw [reMatch_zero] at hb2; exact absurd hb2 (by simp)
      | succ g3 => exact ⟨g3, rfl⟩
    rw [reMatch_cat] at hb2
    obtain ⟨c3, t3, ht2, hc3, hb3⟩ := predSound hb2
    obtain ⟨c4, t4, ht3, hc4, hb4⟩ := predSound hb3
    refine ⟨[c1, c2, c3, c4], t4, ?_, ?_, hb4⟩
    · rw [hu, ht1, ht2, ht3]; rfl
    · simp [hc1, hc2, hc3, hc4]
  obtain ⟨w, s'', hs'', hwall, hK2⟩ := starClassSound hbody f2 s' _ r hK
  have hlen'' : s''.length ≤ s.length := by
    have := congrArg List.length hs''
    simp [List.length_append] at this
    omega
  obtain ⟨f3, rfl⟩ : ∃ f3, f2 = f3 + 1 := ⟨f2 - 1, by omega⟩
  rw [reMatch_opt] at hK2
  rcases orElse_some_inv hK2 with h1 | ⟨_, h2⟩
  · obtain ⟨f4, rfl⟩ : ∃ f4, f3 = f4 + 1 := ⟨f3 - 1, by omega⟩
    rw [reMatch_cat] at h1
    obtain ⟨dc, t', hsdc, hdc, hK3⟩ := litCharSound h1
    have hlent : t'.length ≤ s.length := by
      have := congrArg List.length hsdc
      simp [List.length_cons] at this
      omega
    obtain ⟨d2, s1, ht', hne2, hdig2, hk⟩ := many1Sound (by omega) hK3
    refine ⟨d1 ++ w ++ dc :: d2, s1, ?_, by simp [hne], ?_, hk⟩
    · rw [hs, hs'', hsdc, ht']
      simp
    · simp only [List.all_append, List.all_cons, Bool.and_eq_true]
      refine ⟨⟨?_, ?_⟩, ?_, ?_⟩
      · exact all_weaken (fun c hc => by simp [hc]) hdig
      · exact hwall
      · simp [hdc]
      · exact all_weaken (fun c hc => by simp [hc]) hdig2
  · refine ⟨d1 ++ w, s'', ?_, by simp [hne], ?_, h2⟩
    · rw [hs, hs'']; simp
    · simp only [List.all_append, Bool.and_eq_true]
      exact ⟨all_weaken (fun c hc => by simp [hc]) hdig, hwall⟩

theorem unitSound {f : Nat} {s : Text} {k : Text → Option MRes} {r : MRes}
    (hf : 60 ≤ f)
    (h : reMatch f (alts
      [ .cat (lit "hour") (.opt (lit "s"))
      , .cat (lit "day") (.opt (lit "s"))
      , .cat (lit "week") (.opt (lit "s"))
      , .cat (lit "minute") (.opt (lit "s"))
      , lit "ms"
      , .cat (lit "millisecond") (.opt (lit "s")) ]) s k = some r) :
    ∃ u s1, s = u ++ s1 ∧ u ≠ [] ∧
      ((lowerText u).head? = some 'h' ∨ (lowerText u).head? = some 'd' ∨
       (lowerText u).head? = some 'w' ∨ (lowerText u).head? = some 'm') ∧
      k s1 = some r := by
  have mk : ∀ (u : Text) (c : Char) (ltail : Text), lowerText u = c :: ltail →
      u ≠ [] ∧ (lowerText u).head? = some c := by
    intro u c ltail hlow
    constructor
    · intro hu; subst hu; simp [lowerText] at hlow
    · rw [hlow]; rfl
  rw [show (alts
      [ .cat (lit "hour") (.opt (lit "s"))
      , .cat (lit "day") (.opt (lit "s"))
      , .cat (lit "week") (.opt (lit "s"))
      , .cat (lit "minute") (.opt (lit "s"))
      , lit "ms"
      , .cat (lit "millisecond") (.opt (lit "s")) ]) =
    .alt (.cat (lit "hour") (.opt (lit "s")))
      (.alt (.cat (lit "day") (.opt (lit "s")))
        (.alt (.cat (lit "week") (.opt (lit "s")))
          (.alt (.cat (lit "minute") (.opt (lit "s")))
            (.alt (lit "ms")
              (.cat (lit "millisecond") (.opt (lit "s"))))))) from rfl] at h
  obtain ⟨f1, rfl⟩ : ∃ f1, f = f1 + 1 := ⟨f - 1, by omega⟩
  rw [reMatch_alt] at h
  rcases orElse_some_inv h with h1 | ⟨_, h⟩
  · obtain ⟨u, s1, hs, hlow, hk⟩ := wordOptSound (by simp; omega) h1
    rcases hlow with hl | hl
    · exact ⟨u, s1, hs, (mk u 'h' _ hl).1, Or.inl (mk u 'h' _ hl).2, hk⟩
    · exact ⟨u, s1, hs, (mk u 'h' _ hl).1, Or.inl (mk u 'h' _ hl).2, hk⟩
  obtain ⟨f2, rfl⟩ : ∃ f2, f1 = f2 + 1 := ⟨f1 - 1, by omega⟩
  rw [reMatch_alt] at h
  rcases orElse_some_inv h with h1 | ⟨_, h⟩
  · obtain ⟨u, s1, hs, hlow, hk⟩ := wordOptSound (by simp; omega) h1
    rcases hlow with hl | hl
    · exact ⟨u, s1, hs, (mk u 'd' _ hl).1, Or.inr (Or.inl (mk u 'd' _ hl).2), hk⟩
    · exact ⟨u, s1, hs, (mk u 'd' _ hl).1, Or.inr (Or.inl (mk u 'd' _ hl).2), hk⟩
  obtain ⟨f3, rfl⟩ : ∃ f3, f2 = f3 + 1 := ⟨f2 - 1, by omega⟩
  rw [reMatch_alt] at h
  rcases orElse_some_inv h with h1 | ⟨_, h⟩
  · obtain ⟨u, s1, hs, hlow, hk⟩ := wordOptSound (by simp; omega) h1
    rcases hlow with hl | hl
    · exact ⟨u, s1, hs, (mk u 'w' _ hl).1, Or.inr (Or.inr (Or.inl (mk u 'w' _ hl).2)), hk⟩
    · exact ⟨u, s1, hs, (mk u 'w' _ hl).1, Or.inr (Or.inr (Or.inl (mk u 'w' _ hl).2)), hk⟩
  obtain ⟨f4, rfl⟩ : ∃ f4, f3 = f4 + 1 := ⟨f3 - 1, by omega⟩
  rw [reMatch_alt] at h
  rcases orElse_some_inv h with h1 | ⟨_, h⟩
  · obtain ⟨u, s1, hs, hlow, hk⟩ := wordOptSound (by simp; omega) h1
    rcases hlow with hl | hl
    · exact ⟨u, s1, hs, (mk u 'm' _ hl).1, Or.inr (Or.inr (Or.inr (mk u 'm' _ hl).2)), hk⟩
    · exact ⟨u, s1, hs, (mk u 'm' _ hl).1, Or.inr (Or.inr (Or.inr (mk u 'm' _ hl).2)), hk⟩
  obtain ⟨f5, rfl⟩ : ∃ f5, f4 = f5 + 1 := ⟨f4 - 1, by omega⟩
  rw [reMatch_alt] at h
  rcases orElse_some_inv h with h1 | ⟨_, h⟩
  · obtain ⟨u, s1, hs, hlow, hk⟩ := wordSound (by simp; omega) h1
    exact ⟨u, s1, hs, (mk u 'm' _ hlow).1, Or.inr (Or.inr (Or.inr (mk u 'm' _ hlow).2)), hk⟩
  · obtain ⟨u, s1, hs, hlow, hk⟩ := wordOptSound (by simp; omega) h
    rcases hlow with hl | hl
    · exact ⟨u, s1, hs, (mk u 'm' _ hl).1, Or.inr (Or.inr (Or.inr (mk u 'm' _ hl).2)), hk⟩
    · exact ⟨u, s1, hs, (mk u 'm' _ hl).1, Or.inr (Or.inr (Or.inr (mk u 'm' _ hl).2)), hk⟩

theorem sfxSound {f : Nat} {s : Text} {k : Text → Option MRes} {r : MRes}
    (hf : 40 ≤ f)
    (h : reMatch f (.opt (alts [lit "million", lit "billion", lit "k", lit "thousand"]))
      s k = some r) :
    ∃ x s1, s = x ++ s1 ∧
      (x = [] ∨ lowerText x = "million".toList ∨ lowerText x = "billion".toList ∨
        lowerText x = "k".toList ∨ lowerText x = "thousand".toList) ∧
      k s1 = some r := by
  obtain ⟨f1, rfl⟩ : ∃ f1, f = f1 + 1 := ⟨f - 1, by omega⟩
  rw [reMatch_opt] at h
  rcases orElse_some_inv h with h1 | ⟨_, h2⟩
  · rw [show (alts [lit "million", lit "billion", lit "k", lit "thousand"]) =
      .alt (lit "million") (.alt (lit "billion") (.alt (lit "k") (lit "thousand")))
      from rfl] at h1
    obtain ⟨f2, rfl⟩ : ∃ f2, f1 = f2 + 1 := ⟨f1 - 1, by omega⟩
    rw [reMatch_alt] at h1
    rcases orElse_some_inv h1 with h3 | ⟨_, h1⟩
    · obtain ⟨u, s1, hs, hlow, hk⟩ := wordSound (by simp; omega) h3
      exact ⟨u, s1, hs, Or.inr (Or.inl hlow), hk⟩
    obtain ⟨f3, rfl⟩ : ∃ f3, f2 = f3 + 1 := ⟨f2 - 1, by omega⟩
    rw [reMatch_alt] at h1
    rcases orElse_some_inv h1 with h3 | ⟨_, h1⟩
    · obtain ⟨u, s1, hs, hlow, hk⟩ := wordSound (by simp; omega) h3
      exact ⟨u, s1, hs, Or.inr (Or.inr (Or.inl hlow)), hk⟩
    obtain ⟨f4, rfl⟩ : ∃ f4, f3 = f4 + 1 := ⟨f3 - 1, by omega⟩
    rw [reMatch_alt] at h1
    rcases orElse_some_inv h1 with h3 | ⟨_, h1⟩
    · obtain ⟨u, s1, hs, hlow, hk⟩ := wordSound (by simp; omega) h3
      exact ⟨u, s1, hs, Or.inr (Or.inr (Or.inr (Or.inl hlow))), hk⟩
    · obtain ⟨u, s1, hs, hlow, hk⟩ := wordSound (by simp; omega) h1
      exact ⟨u, s1, hs, Or.inr (Or.inr (Or.inr (Or.inr hlow))), hk⟩
  · exact ⟨[], s, rfl, Or.inl rfl, h2⟩

theorem mtFuel_time_big (s : Text) : 2 * s.length + 80 ≤ mtFuel timeSavingsRE s := by
  have hsz : 30 ≤ reSize timeSavingsRE + 1 := by decide
  have h1 : 30 * (s.length + 4) ≤ (reSize timeSavingsRE + 1) * (s.length + 4) :=
    Nat.mul_le_mul_right _ hsz
  rw [mtFuel]
  omega

theorem mtFuel_cost_big (s : Text) : 2 * s.length + 80 ≤ mtFuel costSavingsRE s := by
  have hsz : 30 ≤ reSize costSavingsRE + 1 := by decide
  have h1 : 30 * (s.length + 4) ≤ (reSize costSavingsRE + 1) * (s.length + 4) :=
    Nat.mul_le_mul_right _ hsz
  rw [mtFuel]
  omega

theorem timeInv {s : Text} {r : MRes} (h : matchAt timeSavingsRE s = some r) :
    ∃ v w d1 dtail w2 u rest,
      s = v ++ w ++ d1 ++ dtail ++ w2 ++ u ++ rest ∧
      (lowerText v = "save".toList ∨ lowerText v = "saved".toList ∨
        lowerText v = "reduce".toList ∨ lowerText v = "reduced".toList) ∧
      w ≠ [] ∧ w.all isSpaceChar = true ∧
      d1 ≠ [] ∧ d1.all isDigitChar = true ∧
      (dtail = [] ∨ ∃ dc d2, dtail = dc :: d2 ∧ dc.toLower = '.' ∧ d2 ≠ [] ∧
        d2.all isDigitChar = true) ∧
      w2.all isSpaceChar = true ∧
      u ≠ [] ∧
      ((lowerText u).head? = some 'h' ∨ (lowerText u).head? = some 'd' ∨
       (lowerText u).head? = some 'w' ∨ (lowerText u).head? = some 'm') ∧
      r.grp = d1 ++ dtail ∧ r.rest = rest := by
  have hbig := mtFuel_time_big s
  rw [matchAt] at h
  obtain ⟨F1, hF1⟩ : ∃ F1, mtFuel timeSavingsRE s = F1 + 1 :=
    ⟨mtFuel timeSavingsRE s - 1, by omega⟩
  rw [hF1] at h
  rw [show timeSavingsRE = .cat saveVerbsRE
      (.cat ws1
        (.cat (.group numberRE)
          (.cat ws0
            (alts
              [ .cat (lit "hour") (.opt (lit "s"))
              , .cat (lit "day") (.opt (lit "s"))
              , .cat (lit "week") (.opt (lit "s"))
              , .cat (lit "minute") (.opt (lit "s"))
              , lit "ms"
              , .cat (lit "millisecond") (.opt (lit "s")) ])))) from rfl] at h
  rw [reMatch_cat] at h
  obtain ⟨v, s1, hsv, hvshape, hK1⟩ := verbSound (by omega) h
  have hlen1 : s1.length ≤ s.length := by
    have := congrArg List.length hsv
    simp [List.length_append] at this
    omega
  obtain ⟨F2, hF2⟩ : ∃ F2, F1 = F2 + 1 := ⟨F1 - 1, by omega⟩
  rw [hF2, reMatch_cat] at hK1
  rw [ws1] at hK1
  obtain ⟨w, s2, hsw, hwne, hwall, hK2⟩ := many1Sound (by omega) hK1
  have hlen2 : s2.length ≤ s.length := by
    have := congrArg List.length hsw
    simp [List.length_append] at this
    omega
  obtain ⟨F3, hF3⟩ : ∃ F3, F2 = F3 + 1 := ⟨F2 - 1, by omega⟩
  rw [hF3, reMatch_cat] at hK2
  obtain ⟨F4, hF4⟩ : ∃ F4, F3 = F4 + 1 := ⟨F3 - 1, by omega⟩
  rw [hF4, reMatch_group] at hK2
  obtain ⟨d1, dtail, s3, hsd, hd1ne, hd1dig, hdtail, hK3⟩ :=
    timeNumSound (by omega) hK2
  have hlen3 : s3.length ≤ s.length := by
    have := congrArg List.length hsd
    simp [List.length_append] at this
    omega
  rw [Option.map_eq_some'] at hK3
  obtain ⟨r0, hK3', hr0⟩ := hK3
  obtain ⟨F5, hF5⟩ : ∃ F5, F4 = F5 + 1 := ⟨F4 - 1, by omega⟩
  rw [hF5, reMatch_cat] at hK3'
  rw [ws0] at hK3'
  obtain ⟨w2, s4, hsw2, hw2all, hK4⟩ := ws0Sound (by omega) hK3'
  have hlen4 : s4.length ≤ s.length := by
    have := congrArg List.length hsw2
    simp [List.length_append] at this
    omega
  obtain ⟨u, s5, hsu, hune, huhead, hk0⟩ := unitSound (by omega) hK4
  simp only [Option.some.injEq] at hk0
  refine ⟨v, w, d1, dtail, w2, u, s5, ?_, hvshape, hwne, hwall, hd1ne, hd1dig,
    hdtail, hw2all, hune, huhead, ?_, ?_⟩
  · rw [hsv, hsw, hsd, hsw2, hsu]
    simp [List.append_assoc]
  · have htake : s2.take (s2.length - s3.length) = d1 ++ dtail := by
      have hs2 : s2 = (d1 ++ dtail) ++ s3 := by rw [hsd]
      rw [hs2]
      have hl : ((d1 ++ dtail) ++ s3).length - s3.length = (d1 ++ dtail).length := by
        simp only [List.length_append]
        omega
      rw [hl, List.take_left]
    rw [← hr0]
    simpa using htake
  · rw [← hr0]
    simp
    rw [← hk0]

theorem costInv {s : Text} {r : MRes} (h : matchAt costSavingsRE s = some r) :
    ∃ v w dol n w2 x,
      s = v ++ w ++ dol ++ n ++ w2 ++ x ++ r.rest ∧
      (lowerText v = "save".toList ∨ lowerText v = "saved".toList ∨
        lowerText v = "reduce".toList ∨ lowerText v = "reduced".toList) ∧
      w ≠ [] ∧ w.all isSpaceChar = true ∧
      (dol = [] ∨ ∃ dc, dol = [dc] ∧ dc.toLower = '$') ∧
      n ≠ [] ∧
      n.all (fun c => isDigitChar c || (c.toLower == '.') || (c.toLower == ',')) = true ∧
      w2.all isSpaceChar = true ∧
      (x = [] ∨ lowerText x = "million".toList ∨ lowerText x = "billion".toList ∨
        lowerText x = "k".toList ∨ lowerText x = "thousand".toList) := by
  have hbig := mtFuel_cost_big s
  rw [matchAt] at h
  obtain ⟨F1, hF1⟩ : ∃ F1, mtFuel costSavingsRE s = F1 + 1 :=
    ⟨mtFuel costSavingsRE s - 1, by omega⟩
  rw [hF1] at h
  rw [show costSavingsRE = .cat saveVerbsRE
      (.cat ws1
        (.cat (.opt (litChar '$'))
          (.cat (.group costNumberRE)
            (.cat ws0
              (.opt (alts [lit "million", lit "billion", lit "k", lit "thousand"]))))))
      from rfl] at h
  rw [reMatch_cat] at h
  obtain ⟨v, s1, hsv, hvshape, hK1⟩ := verbSound (by omega) h
  have hlen1 : s1.length ≤ s.length := by
    have := congrArg List.length hsv
    simp [List.length_append] at this
    omega
  obtain ⟨F2, hF2⟩ : ∃ F2, F1 = F2 + 1 := ⟨F1 - 1, by omega⟩
  rw [hF2, reMatch_cat] at hK1
  rw [ws1] at hK1
  obtain ⟨w, s2, hsw, hwne, hwall, hK2⟩ := many1Sound (by omega) hK1
  have hlen2 : s2.length ≤ s.length := by
    have := congrArg List.length hsw
    simp [List.length_append] at this
    omega
  obtain ⟨F3, hF3⟩ : ∃ F3, F2 = F3 + 1 := ⟨F2 - 1, by omega⟩
  rw [hF3, reMatch_cat] at hK2
  obtain ⟨F4, hF4⟩ : ∃ F4, F3 = F4 + 1 := ⟨F3 - 1, by omega⟩
  rw [hF4, reMatch_opt] at hK2
  have hdollar : ∃ dol s2', s2 = dol ++ s2' ∧
      (dol = [] ∨ ∃ dc, dol = [dc] ∧ dc.toLower = '$') ∧
      reMatch (F4 + 1) (.cat (.group costNumberRE)
        (.cat ws0 (.opt (alts [lit "million", lit "billion", lit "k", lit "thousand"]))))
        s2' (fun rest => some { grp := [], rest := rest }) = some r := by
    rcases orElse_some_inv hK2 with h1 | ⟨_, h2⟩
    · obtain ⟨dc, t, hdc1, hdc2, hk⟩ := litCharSound h1
      exact ⟨[dc], t, by simp [hdc1], Or.inr ⟨dc, rfl, hdc2⟩, hk⟩
    · exact ⟨[], s2, rfl, Or.inl rfl, h2⟩
  obtain ⟨dol, s2', hsdol, hdolshape, hK2'⟩ := hdollar
  have hlen2' : s2'.length ≤ s.length := by
    have := congrArg List.length hsdol
    simp [List.length_append] at this
    omega
  rw [reMatch_cat] at hK2'
  obtain ⟨F6, hF6⟩ : ∃ F6, F4 = F6 + 1 := ⟨F4 - 1, by omega⟩
  rw [hF6, reMatch_group] at hK2'
  obtain ⟨n, s3, hsn, hnne, hnall, hK3⟩ := costNumSound (by omega) hK2'
  have hlen3 : s3.length ≤ s.length := by
    have := congrArg List.length hsn
    simp [List.length_append] at this
    omega
  rw [Option.map_eq_some'] at hK3
  obtain ⟨r0, hK3', hr0⟩ := hK3
  rw [reMatch_cat] at hK3'
  rw [ws0] at hK3'
  obtain ⟨w2, s4, hsw0, hw2all, hK4⟩ := ws0Sound (by omega) hK3'
  have hlen4 : s4.length ≤ s.length := by
    have := congrArg List.length hsw0
    simp [List.length_append] at this
    omega
  obtain ⟨x, s5, hsx, hxshape, hk0⟩ := sfxSound (by omega) hK4
  simp only [Option.some.injEq] at hk0
  have hrest : r.rest = s5 := by
    rw [← hr0, ← hk0]
  refine ⟨v, w, dol, n, w2, x, ?_, hvshape, hwne, hwall, hdolshape, hnne, hnall,
    hw2all, hxshape⟩
  rw [hrest, hsv, hsw, hsdol, hsn, hsw0, hsx]
  simp [List.append_assoc]

theorem spaceChar_cases {c : Char} (h : isSpaceChar c = true) :
    c = ' ' ∨ c = '\t' ∨ c = '\n' ∨ c = '\r' ∨ c = '\x0b' ∨ c = '\x0c' := by
  simp only [isSpaceChar, Bool.or_eq_true, beq_iff_eq] at h
  tauto

theorem space_not_digit {c : Char} (h : isSpaceChar c = true) : isDigitChar c = false := by
  rcases spaceChar_cases h with rfl | rfl | rfl | rfl | rfl | rfl <;> decide

theorem space_lower_ne {c : Char} (h : isSpaceChar c = true) (d : Char) (hd : isSpaceChar d = false) :
    (c.toLower == d) = false := by
  rcases spaceChar_cases h with rfl | rfl | rfl | rfl | rfl | rfl <;>
    (simp only [beq_eq_false_iff_ne, ne_eq]
     intro hc
     rw [← hc] at hd
     exact absurd hd (by decide))

theorem digit_val_bounds {c : Char} (h : isDigitChar c = true) :
    48 ≤ c.toNat ∧ c.toNat ≤ 57 := by
  simp only [isDigitChar, Char.isDigit] at h
  rw [Bool.and_eq_true] at h
  have h1 : ('0' : Char) ≤ c := by simpa using h.1
  have h2 : c ≤ ('9' : Char) := by simpa using h.2
  exact ⟨h1, h2⟩

theorem digit_toLower_self {c : Char} (h : isDigitChar c = true) : c.toLower = c := by
  obtain ⟨hv1, hv2⟩ := digit_val_bounds h
  rw [Char.toLower]
  split
  · next hcond =>
    exfalso
    have h65 : 65 ≤ c.toNat := hcond.1
    omega
  · rfl

theorem digit_lower_ne {c : Char} (h : isDigitChar c = true) {d : Char}
    (hd : isDigitChar d = false) : (c.toLower == d) = false := by
  rw [digit_toLower_self h]
  simp only [beq_eq_false_iff_ne, ne_eq]
  intro hc
  rw [hc] at h
  rw [h] at hd
  exact absurd hd (by simp)

theorem lower_eq_not_digit {c e : Char} (h : c.toLower = e) (he : isDigitChar e = false) :
    isDigitChar c = false := by
  by_contra hc
  rw [Bool.not_eq_false] at hc
  rw [digit_toLower_self hc] at h
  rw [h] at hc
  rw [hc] at he
  exact absurd he (by simp)

theorem lowerText_eq_append :
    ∀ {v A B : Text}, lowerText v = A ++ B →
    ∃ va vb, v = va ++ vb ∧ lowerText va = A ∧ lowerText vb = B := by
  intro v A
  induction A generalizing v with
  | nil => intro B h; exact ⟨[], v, rfl, rfl, h⟩
  | cons a A ih =>
    intro B h
    cases v with
    | nil => simp [lowerText] at h
    | cons c v' =>
      rw [lowerText, List.map_cons, List.cons_append] at h
      injection h with h1 h2
      obtain ⟨va, vb, hv, hla, hlb⟩ := ih h2
      refine ⟨c :: va, vb, by rw [hv]; rfl, ?_, hlb⟩
      rw [lowerText, List.map_cons, h1]
      exact congrArg (List.cons a) hla

theorem lowerText_singleton {v : Text} {d : Char} (h : lowerText v = [d]) :
    ∃ c, v = [c] ∧ c.toLower = d := by
  cases v with
  | nil => simp [lowerText] at h
  | cons c v' =>
    rw [lowerText, List.map_cons] at h
    injection h with h1 h2
    cases v' with
    | nil => exact ⟨c, rfl, h1⟩
    | cons _ _ => simp [lowerText] at h2

theorem starDrops_ne_nil (p : Char → Bool) (s : Text) : starDrops p s ≠ [] := by
  cases s with
  | nil => simp [starDrops]
  | cons c t =>
    rw [starDrops]
    by_cases hp : p c = true
    · rw [if_pos hp]; simp
    · rw [if_neg hp]; simp

theorem wordCatNone {w : String} {X : RE} {f : Nat} {s : Text} {k : Text → Option MRes}
    (hf : 2 * w.toList.length + 4 ≤ f) (hpre : cfIsPrefix w.toList s = false) :
    reMatch f (.cat (lit w) X) s k = none := by
  obtain ⟨f1, rfl⟩ : ∃ f1, f = f1 + 1 := ⟨f - 1, by omega⟩
  rw [reMatch_cat, reMatch_lit_exact w s _ f1 (by omega), hpre]
  simp

theorem verbForward {f : Nat} {v tail : Text} {K : Text → Option MRes} {res : MRes}
    (hf : 60 ≤ f)
    (hv : lowerText v = "save".toList ∨ lowerText v = "saved".toList ∨
      lowerText v = "reduce".toList ∨ lowerText v = "reduced".toList)
    (hnext : ∀ c t', tail = c :: t' → (c.toLower == 'd') = false)
    (hK : K tail = some res) :
    reMatch f saveVerbsRE (v ++ tail) K = some res := by
  obtain ⟨f1, rfl⟩ : ∃ f1, f = f1 + 1 := ⟨f - 1, by omega⟩
  rw [show saveVerbsRE = .alt (.cat (lit "save") (.opt (lit "d")))
      (.cat (lit "reduce") (.opt (lit "d"))) from rfl, reMatch_alt]
  have hoptskip : ∀ (g : Nat) (t : Text), 6 ≤ g →
      (∀ c t', t = c :: t' → (c.toLower == 'd') = false) → K t = some res →
      reMatch g (.opt (lit "d")) t K = some res := by
    intro g t hg hno hKt
    obtain ⟨g1, rfl⟩ : ∃ g1, g = g1 + 1 := ⟨g - 1, by omega⟩
    have hlen : ("d".toList).length = 1 := rfl
    rw [reMatch_opt, reMatch_lit_exact "d" t _ g1 (by omega)]
    have hpre : cfIsPrefix "d".toList t = false := by
      cases t with
      | nil => rfl
      | cons c t' =>
        rw [show ("d".toList) = ['d'] from rfl, cfIsPrefix, hno c t' rfl]
        rfl
    rw [hpre]
    simpa using hKt
  have hopttake : ∀ (g : Nat) (dc : Char) (t : Text), 6 ≤ g → dc.toLower = 'd' →
      K t = some res → reMatch g (.opt (lit "d")) (dc :: t) K = some res := by
    intro g dc t hg hdc hKt
    obtain ⟨g1, rfl⟩ : ∃ g1, g = g1 + 1 := ⟨g - 1, by omega⟩
    have hlen : ("d".toList).length = 1 := rfl
    rw [reMatch_opt, reMatch_lit_exact "d" (dc :: t) _ g1 (by omega)]
    have hpre : cfIsPrefix "d".toList (dc :: t) = true := by
      rw [show ("d".toList) = ['d'] from rfl, cfIsPrefix, hdc]
      simp [cfIsPrefix]
    rw [hpre]
    have hdrop : List.drop ("d".toList).length (dc :: t) = t := rfl
    simp only [if_true, hdrop, hKt]
    rfl
  have hlen4 : ("save".toList).length = 4 := rfl
  have hlen6 : ("reduce".toList).length = 6 := rfl
  rcases hv with hl | hl | hl | hl
  · obtain ⟨f2, rfl⟩ : ∃ f2, f1 = f2 + 1 := ⟨f1 - 1, by omega⟩
    rw [reMatch_cat, reMatch_lit_exact "save" _ _ f2 (by omega)]
    have hp := cfIsPrefix_of_lower (u := v) tail
    rw [hl] at hp
    rw [hp.1, hp.2, hoptskip f2 tail (by omega) hnext hK]
    rfl
  · obtain ⟨f2, rfl⟩ : ∃ f2, f1 = f2 + 1 := ⟨f1 - 1, by omega⟩
    rw [reMatch_cat, reMatch_lit_exact "save" _ _ f2 (by omega)]
    obtain ⟨va, vb, hvsplit, hva, hvb⟩ :=
      lowerText_eq_append (A := "save".toList) (B := "d".toList) (by rw [hl]; rfl)
    obtain ⟨dc, hvb1, hdc⟩ := lowerText_singleton hvb
    have hp := cfIsPrefix_of_lower (u := va) (vb ++ tail)
    rw [hva] at hp
    have hv2 : v ++ tail = va ++ (vb ++ tail) := by rw [hvsplit]; simp
    rw [hv2, hp.1, hp.2, hvb1]
    have hstep : (dc :: tail : Text) = [dc] ++ tail := rfl
    rw [← hstep, hopttake f2 dc tail (by omega) hdc hK]
    rfl
  · have hfail : cfIsPrefix "save".toList (v ++ tail) = false := by
      cases v with
      | nil => simp [lowerText] at hl
      | cons c v' =>
        rw [lowerText, List.map_cons] at hl
        injection hl with h1 _
        rw [show ("save".toList) = 's' :: "ave".toList from rfl, List.cons_append,
          cfIsPrefix, h1]
        rfl
    rw [wordCatNone (by rw [hlen4]; omega) hfail, Option.none_orElse]
    obtain ⟨f2, rfl⟩ : ∃ f2, f1 = f2 + 1 := ⟨f1 - 1, by omega⟩
    rw [reMatch_cat, reMatch_lit_exact "reduce" _ _ f2 (by omega)]
    have hp := cfIsPrefix_of_lower (u := v) tail
    rw [hl] at hp
    rw [hp.1, hp.2, hoptskip f2 tail (by omega) hnext hK]
    rfl
  · have hfail : cfIsPrefix "save".toList (v ++ tail) = false := by
      cases v with
      | nil => simp [lowerText] at hl
      | cons c v' =>
        rw [lowerText, List.map_cons] at hl
        injection hl with h1 _
        rw [show ("save".toList) = 's' :: "ave".toList from rfl, List.cons_append,
          cfIsPrefix, h1]
        rfl
    rw [wordCatNone (by rw [hlen4]; omega) hfail, Option.none_orElse]
    obtain ⟨f2, rfl⟩ : ∃ f2, f1 = f2 + 1 := ⟨f1 - 1, by omega⟩
    rw [reMatch_cat, reMatch_lit_exact "reduce" _ _ f2 (by omega)]
    obtain ⟨va, vb, hvsplit, hva, hvb⟩ :=
      lowerText_eq_append (A := "reduce".toList) (B := "d".toList) (by rw [hl]; rfl)
    obtain ⟨dc, hvb1, hdc⟩ := lowerText_singleton hvb
    have hp := cfIsPrefix_of_lower (u := va) (vb ++ tail)
    rw [hva] at hp
    have hv2 : v ++ tail = va ++ (vb ++ tail) := by rw [hvsplit]; simp
    rw [hv2, hp.1, hp.2, hvb1]
    have hstep : (dc :: tail : Text) = [dc] ++ tail := rfl
    rw [← hstep, hopttake f2 dc tail (by omega) hdc hK]
    rfl

theorem digit_not_space {c : Char} (h : isDigitChar c = true) : isSpaceChar c = false := by
  by_contra hs
  rw [Bool.not_eq_false] at hs
  rw [space_not_digit hs] at h
  exact absurd h (by simp)

theorem many1Forward {p : Char → Bool} {w x : Text} {k : Text → Option MRes} {res : MRes}
    {f : Nat} (hf : 2 * (w ++ x).length + 6 ≤ f) (hw : w ≠ []) (hwall : w.all p = true)
    (hx : x = [] ∨ ∃ c t, x = c :: t ∧ p c = false) (hk : k x = some res) :
    reMatch f (many1 p) (w ++ x) k = some res := by
  cases w with
  | nil => exact absurd rfl hw
  | cons wc w' =>
    simp only [List.all_cons, Bool.and_eq_true] at hwall
    have hlen : ((wc :: w' ++ x : Text)).length = (w' ++ x).length + 1 := by simp
    rw [List.cons_append, reMatch_many1_cons p wc (w' ++ x) k f (by omega)]
    rw [if_pos hwall.1]
    obtain ⟨l, hl⟩ := starDrops_of_run p w' x hwall.2 hx
    rw [hl]
    exact firstSome_cons_some hk

theorem commaStarSkip {X : RE} {f : Nat} {s : Text} {k : Text → Option MRes}
    (hf : 6 ≤ f)
    (hs : s = [] ∨ ∃ c t, s = c :: t ∧ (c.toLower == ',') = false) :
    reMatch f (.star (.cat (litChar ',') X)) s k = k s := by
  obtain ⟨f1, rfl⟩ : ∃ f1, f = f1 + 1 := ⟨f - 1, by omega⟩
  rw [reMatch_star]
  have hnone : reMatch f1 (.cat (litChar ',') X) s
      (fun s1 => if s1.length < s.length then
        reMatch f1 (.star (.cat (litChar ',') X)) s1 k else none) = none := by
    obtain ⟨f2, rfl⟩ : ∃ f2, f1 = f2 + 1 := ⟨f1 - 1, by omega⟩
    rw [reMatch_cat]
    obtain ⟨f3, rfl⟩ : ∃ f3, f2 = f3 + 1 := ⟨f2 - 1, by omega⟩
    rcases hs with rfl | ⟨c, t, rfl, hc⟩
    · rw [reMatch_litChar_nil]
    · rw [reMatch_litChar_cons]
      simp [hc]
  rw [hnone, Option.none_orElse]

theorem optCharSkip {d : Char} {f : Nat} {s : Text} {k : Text → Option MRes} {res : MRes}
    (hf : 2 ≤ f) (hs : s = [] ∨ ∃ c t, s = c :: t ∧ (c.toLower == d) = false)
    (hk : k s = some res) : reMatch f (.opt (litChar d)) s k = some res := by
  obtain ⟨f1, rfl⟩ : ∃ f1, f = f1 + 1 := ⟨f - 1, by omega⟩
  rw [reMatch_opt]
  have hnone : reMatch f1 (litChar d) s k = none := by
    obtain ⟨f2, rfl⟩ : ∃ f2, f1 = f2 + 1 := ⟨f1 - 1, by omega⟩
    rcases hs with rfl | ⟨c, t, rfl, hc⟩
    · rw [reMatch_litChar_nil]
    · rw [reMatch_litChar_cons]
      simp [hc]
  rw [hnone, Option.none_orElse, hk]

theorem dotOptForward {f : Nat} {dtail t2 : Text} {k : Text → Option MRes} {res : MRes}
    (hf : 2 * (dtail ++ t2).length + 12 ≤ f)
    (hdtail : dtail = [] ∨ ∃ dc d2, dtail = dc :: d2 ∧ dc.toLower = '.' ∧ d2 ≠ [] ∧
      d2.all isDigitChar = true)
    (ht2 : t2 = [] ∨ ∃ c t, t2 = c :: t ∧ isDigitChar c = false ∧
      (c.toLower == '.') = false)
    (hk : k t2 = some res) :
    reMatch f (.opt (.cat (litChar '.') (many1 isDigitChar))) (dtail ++ t2) k = some res := by
  obtain ⟨f1, rfl⟩ : ∃ f1, f = f1 + 1 := ⟨f - 1, by omega⟩
  rw [reMatch_opt]
  rcases hdtail with rfl | ⟨dc, d2, rfl, hdc, hd2, hd2all⟩
  · have hnone : reMatch f1 (.cat (litChar '.') (many1 isDigitChar)) ([] ++ t2)
        (fun s1 => k s1) = none := by
      simp only [List.nil_append]
      obtain ⟨f2, rfl⟩ : ∃ f2, f1 = f2 + 1 := ⟨f1 - 1, by omega⟩
      rw [reMatch_cat]
      obtain ⟨f3, rfl⟩ : ∃ f3, f2 = f3 + 1 := ⟨f2 - 1, by omega⟩
      rcases ht2 with rfl | ⟨c, t, rfl, _, hcdot⟩
      · rw [reMatch_litChar_nil]
      · rw [reMatch_litChar_cons]
        simp [hcdot]
    rw [show (reMatch f1 (.cat (litChar '.') (many1 isDigitChar)) ([] ++ t2) k)
        = reMatch f1 (.cat (litChar '.') (many1 isDigitChar)) ([] ++ t2) (fun s1 => k s1)
        from rfl, hnone, Option.none_orElse]
    simpa using hk
  · have hsome : reMatch f1 (.cat (litChar '.') (many1 isDigitChar)) ((dc :: d2) ++ t2) k
        = some res := by
      obtain ⟨f2, rfl⟩ : ∃ f2, f1 = f2 + 1 := ⟨f1 - 1, by omega⟩
      rw [reMatch_cat]
      obtain ⟨f3, rfl⟩ : ∃ f3, f2 = f3 + 1 := ⟨f2 - 1, by omega⟩
      rw [List.cons_append, reMatch_litChar_cons, hdc]
      have hbt : (('.' : Char) == '.') = true := rfl
      rw [hbt, if_pos rfl]
      have hlen : ((dc :: d2 ++ t2 : Text)).length = (d2 ++ t2).length + 1 := by simp
      have hx : t2 = [] ∨ ∃ c t, t2 = c :: t ∧ isDigitChar c = false := by
        rcases ht2 with rfl | ⟨c, t, rfl, hcd, _⟩
        · exact Or.inl rfl
        · exact Or.inr ⟨c, t, rfl, hcd⟩
      exact many1Forward (by omega) hd2 hd2all hx hk
    rw [hsome]
    rfl

theorem costTailSome (f : Nat) (t : Text) (k : Text → Option MRes)
    (hf : 2 * t.length + 8 ≤ f) (hk : ∀ x, ∃ r, k x = some r) :
    ∃ r, reMatch f
      (.cat ws0 (.opt (alts [lit "million", lit "billion", lit "k", lit "thousand"])))
      t k = some r := by
  obtain ⟨f1, rfl⟩ : ∃ f1, f = f1 + 1 := ⟨f - 1, by omega⟩
  rw [reMatch_cat, show ws0 = .star (.pred isSpaceChar) from rfl,
    reMatch_starPred_exact isSpaceChar t _ f1 (by omega)]
  obtain ⟨x, l, hx⟩ : ∃ x l, starDrops isSpaceChar t = x :: l := by
    cases hsd : starDrops isSpaceChar t with
    | nil => exact absurd hsd (starDrops_ne_nil _ _)
    | cons a b => exact ⟨a, b, rfl⟩
  rw [hx]
  have hhead : ∃ r, reMatch f1
      (.opt (alts [lit "million", lit "billion", lit "k", lit "thousand"])) x k = some r := by
    obtain ⟨f2, rfl⟩ : ∃ f2, f1 = f2 + 1 := ⟨f1 - 1, by omega⟩
    rw [reMatch_opt]
    obtain ⟨r0, hr0⟩ := hk x
    cases hA : reMatch f2 (alts [lit "million", lit "billion", lit "k", lit "thousand"]) x k with
    | none => exact ⟨r0, by rw [Option.none_orElse, hr0]⟩
    | some ra => exact ⟨ra, rfl⟩
  obtain ⟨r, hr⟩ := hhead
  exact ⟨r, firstSome_cons_some hr⟩

theorem costNumGroupForward {f : Nat} {d1 dtail t2 : Text} {k : Text → Option MRes} {res : MRes}
    (hf : 2 * (d1 ++ (dtail ++ t2)).length + 30 ≤ f)
    (hd1 : d1 ≠ []) (hd1all : d1.all isDigitChar = true)
    (hdtail : dtail = [] ∨ ∃ dc d2, dtail = dc :: d2 ∧ dc.toLower = '.' ∧ d2 ≠ [] ∧
      d2.all isDigitChar = true)
    (ht2 : t2 = [] ∨ ∃ c t, t2 = c :: t ∧ isDigitChar c = false ∧
      (c.toLower == '.') = false ∧ (c.toLower == ',') = false)
    (hk : k t2 = some res) :
    reMatch f (.group costNumberRE) (d1 ++ (dtail ++ t2)) k =
      some { grp := d1 ++ dtail, rest := res.rest } := by
  obtain ⟨f1, rfl⟩ : ∃ f1, f = f1 + 1 := ⟨f - 1, by omega⟩
  rw [reMatch_group]
  have hlen : ((d1 ++ (dtail ++ t2) : Text)).length
      = d1.length + dtail.length + t2.length := by
    simp [List.length_append]
    omega
  have hlen2 : ((dtail ++ t2 : Text)).length = dtail.length + t2.length := by simp
  have hKt2 : (k t2).map (fun r => { r with
        grp := (d1 ++ (dtail ++ t2)).take ((d1 ++ (dtail ++ t2)).length - t2.length) })
      = some { grp := d1 ++ dtail, rest := res.rest } := by
    rw [hk, Option.map_some']
    have hsub : ((d1 ++ (dtail ++ t2) : Text)).length - t2.length
        = ((d1 ++ dtail : Text)).length := by
      simp [List.length_append] at hlen ⊢
      omega
    have hassoc : (d1 ++ (dtail ++ t2) : Text) = (d1 ++ dtail) ++ t2 := by
      simp [List.append_assoc]
    rw [hsub, hassoc, List.take_left]
  rw [show costNumberRE = .cat (many1 isDigitChar)
      (.cat (.star (.cat (litChar ',')
          (.cat (.pred isDigitChar) (.cat (.pred isDigitChar) (.pred isDigitChar)))))
        (.opt (.cat (litChar '.') (many1 isDigitChar)))) from rfl]
  obtain ⟨f2, rfl⟩ : ∃ f2, f1 = f2 + 1 := ⟨f1 - 1, by omega⟩
  rw [reMatch_cat]
  have hstep : reMatch f2
      (.cat (.star (.cat (litChar ',')
          (.cat (.pred isDigitChar) (.cat (.pred isDigitChar) (.pred isDigitChar)))))
        (.opt (.cat (litChar '.') (many1 isDigitChar)))) (dtail ++ t2)
      (fun s1 => (k s1).map (fun r => { r with
        grp := (d1 ++ (dtail ++ t2)).take ((d1 ++ (dtail ++ t2)).length - s1.length) }))
      = some { grp := d1 ++ dtail, rest := res.rest } := by
    obtain ⟨f3, rfl⟩ : ∃ f3, f2 = f3 + 1 := ⟨f2 - 1, by omega⟩
    rw [reMatch_cat]
    have hcomma : dtail ++ t2 = [] ∨ ∃ c t, dtail ++ t2 = c :: t ∧
        (c.toLower == ',') = false := by
      rcases hdtail with rfl | ⟨dc, d2, rfl, hdc, _, _⟩
      · rcases ht2 with rfl | ⟨c, t, rfl, _, _, hcc⟩
        · exact Or.inl rfl
        · exact Or.inr ⟨c, t, rfl, hcc⟩
      · refine Or.inr ⟨dc, d2 ++ t2, rfl, ?_⟩
        rw [hdc]
        rfl
    rw [commaStarSkip (by omega) hcomma]
    have ht2dot : t2 = [] ∨ ∃ c t, t2 = c :: t ∧ isDigitChar c = false ∧
        (c.toLower == '.') = false := by
      rcases ht2 with rfl | ⟨c, t, rfl, hcd, hcdot, _⟩
      · exact Or.inl rfl
      · exact Or.inr ⟨c, t, rfl, hcd, hcdot⟩
    exact dotOptForward (by omega) hdtail ht2dot hKt2
  have hxhead : dtail ++ t2 = [] ∨ ∃ c t, dtail ++ t2 = c :: t ∧ isDigitChar c = false := by
    rcases hdtail with rfl | ⟨dc, d2, rfl, hdc, _, _⟩
    · rcases ht2 with rfl | ⟨c, t, rfl, hcd, _, _⟩
      · exact Or.inl rfl
      · exact Or.inr ⟨c, t, rfl, hcd⟩
    · refine Or.inr ⟨dc, d2 ++ t2, rfl, ?_⟩
      exact lower_eq_not_digit hdc (by decide)
  exact many1Forward (by omega) hd1 hd1all hxhead hstep

theorem costAfterVerb {g : Nat} {w d1 dtail w2 u rest : Text}
    (hg : 2 * (w ++ (d1 ++ (dtail ++ (w2 ++ (u ++ rest))))).length + 60 ≤ g)
    (hw : w ≠ []) (hwall : w.all isSpaceChar = true)
    (hd1 : d1 ≠ []) (hd1all : d1.all isDigitChar = true)
    (hdtail : dtail = [] ∨ ∃ dc d2, dtail = dc :: d2 ∧ dc.toLower = '.' ∧ d2 ≠ [] ∧
      d2.all isDigitChar = true)
    (hw2all : w2.all isSpaceChar = true)
    (hu : u ≠ [])
    (huh : (lowerText u).head? = some 'h' ∨ (lowerText u).head? = some 'd' ∨
      (lowerText u).head? = some 'w' ∨ (lowerText u).head? = some 'm') :
    ∃ rest', reMatch g
      (.cat ws1
        (.cat (.opt (litChar '$'))
          (.cat (.group costNumberRE)
            (.cat ws0 (.opt (alts [lit "million", lit "billion", lit "k", lit "thousand"]))))))
      (w ++ (d1 ++ (dtail ++ (w2 ++ (u ++ rest)))))
      (fun rr => some { grp := [], rest := rr })
      = some { grp := d1 ++ dtail, rest := rest' } := by
  have hL : ((w ++ (d1 ++ (dtail ++ (w2 ++ (u ++ rest)))) : Text)).length
      = w.length + (d1.length + (dtail.length + (w2.length + (u.length + rest.length)))) := by
    simp
  have ht2shape : ∃ c t, w2 ++ (u ++ rest) = c :: t ∧ isDigitChar c = false ∧
      (c.toLower == '.') = false ∧ (c.toLower == ',') = false := by
    cases w2 with
    | cons wc w2' =>
      simp only [List.all_cons, Bool.and_eq_true] at hw2all
      exact ⟨wc, w2' ++ (u ++ rest), rfl, space_not_digit hw2all.1,
        space_lower_ne hw2all.1 '.' (by decide), space_lower_ne hw2all.1 ',' (by decide)⟩
    | nil =>
      cases u with
      | nil => exact absurd rfl hu
      | cons uc u' =>
        have huc : uc.toLower = 'h' ∨ uc.toLower = 'd' ∨ uc.toLower = 'w' ∨
            uc.toLower = 'm' := by
          simpa [lowerText] using huh
        refine ⟨uc, u' ++ rest, by simp, ?_, ?_, ?_⟩
        · rcases huc with h | h | h | h <;> exact lower_eq_not_digit h (by decide)
        · rcases huc with h | h | h | h <;> (rw [h]; rfl)
        · rcases huc with h | h | h | h <;> (rw [h]; rfl)
  cases d1 with
  | nil => exact absurd rfl hd1
  | cons dc1 d1' =>
  have hdig : isDigitChar dc1 = true := by
    simp only [List.all_cons, Bool.and_eq_true] at hd1all
    exact hd1all.1
  obtain ⟨g1, rfl⟩ : ∃ g1, g = g1 + 1 := ⟨g - 1, by omega⟩
  rw [reMatch_cat]
  obtain ⟨g2, hg1⟩ : ∃ g2, g1 = g2 + 1 := ⟨g1 - 1, by omega⟩
  obtain ⟨g3, hg2⟩ : ∃ g3, g2 = g3 + 1 := ⟨g2 - 1, by omega⟩
  have hLt2 : ((w2 ++ (u ++ rest) : Text)).length
      = w2.length + (u.length + rest.length) := by simp
  obtain ⟨res0, hres0⟩ := costTailSome g3 (w2 ++ (u ++ rest))
    (fun rr => some { grp := [], rest := rr }) (by omega) (fun x => ⟨{ grp := [], rest := x }, rfl⟩)
  have hA1 : ((dc1 :: d1' : Text)).length = d1'.length + 1 := rfl
  have hA2 : (((dc1 :: d1') ++ (dtail ++ (w2 ++ (u ++ rest))) : Text)).length
      = (dc1 :: d1' : Text).length + (dtail.length + ((w2 ++ (u ++ rest) : Text)).length) := by
    simp
    omega
  have hgrp : reMatch g3 (.group costNumberRE)
      ((dc1 :: d1') ++ (dtail ++ (w2 ++ (u ++ rest))))
      (fun s1 => reMatch g3
        (.cat ws0 (.opt (alts [lit "million", lit "billion", lit "k", lit "thousand"])))
        s1 (fun rr => some { grp := [], rest := rr }))
      = some { grp := (dc1 :: d1') ++ dtail, rest := res0.rest } := by
    exact costNumGroupForward (by omega) hd1 hd1all hdtail (Or.inr ht2shape) hres0
  have hREST3 : reMatch g2
      (.cat (.group costNumberRE)
        (.cat ws0 (.opt (alts [lit "million", lit "billion", lit "k", lit "thousand"]))))
      ((dc1 :: d1') ++ (dtail ++ (w2 ++ (u ++ rest))))
      (fun rr => some { grp := [], rest := rr })
      = some { grp := (dc1 :: d1') ++ dtail, rest := res0.rest } := by
    rw [hg2, reMatch_cat]
    exact hgrp
  have hREST2 : reMatch g1
      (.cat (.opt (litChar '$'))
        (.cat (.group costNumberRE)
          (.cat ws0 (.opt (alts [lit "million", lit "billion", lit "k", lit "thousand"])))))
      ((dc1 :: d1') ++ (dtail ++ (w2 ++ (u ++ rest))))
      (fun rr => some { grp := [], rest := rr })
      = some { grp := (dc1 :: d1') ++ dtail, rest := res0.rest } := by
    rw [hg1, reMatch_cat]
    exact optCharSkip (by omega)
      (Or.inr ⟨dc1, d1' ++ (dtail ++ (w2 ++ (u ++ rest))), by simp,
        digit_lower_ne hdig (by decide)⟩)
      hREST3
  refine ⟨res0.rest, ?_⟩
  rw [show ws1 = many1 isSpaceChar from rfl]
  exact many1Forward (by omega) hw hwall
    (Or.inr ⟨dc1, d1' ++ (dtail ++ (w2 ++ (u ++ rest))), by simp, digit_not_space hdig⟩)
    hREST2

theorem timeToCost {s : Text} {r : MRes} (h : matchAt timeSavingsRE s = some r) :
    ∃ rest', matchAt costSavingsRE s = some { grp := r.grp, rest := rest' } := by
  obtain ⟨v, w, d1, dtail, w2, u, rest, hs, hv, hw, hwall, hd1, hd1all, hdtail, hw2all,
    hu, huh, hgrp, hrest⟩ := timeInv h
  have hbig := mtFuel_cost_big s
  rw [matchAt]
  obtain ⟨F1, hF1⟩ : ∃ F1, mtFuel costSavingsRE s = F1 + 1 :=
    ⟨mtFuel costSavingsRE s - 1, by omega⟩
  rw [hF1] at hbig ⊢
  rw [show costSavingsRE = .cat saveVerbsRE
      (.cat ws1
        (.cat (.opt (litChar '$'))
          (.cat (.group costNumberRE)
            (.cat ws0
              (.opt (alts [lit "million", lit "billion", lit "k", lit "thousand"]))))))
      from rfl, reMatch_cat]
  have hs' : s = v ++ (w ++ (d1 ++ (dtail ++ (w2 ++ (u ++ rest))))) := by
    rw [hs]
    simp
  have hX : s.length
      = v.length + ((w ++ (d1 ++ (dtail ++ (w2 ++ (u ++ rest)))) : Text)).length := by
    rw [hs', List.length_append]
  have hbound : 2 * ((w ++ (d1 ++ (dtail ++ (w2 ++ (u ++ rest))))) : Text).length + 60
      ≤ F1 := by omega
  obtain ⟨rest', hrun⟩ := costAfterVerb hbound hw hwall hd1 hd1all hdtail
    hw2all hu huh
  rw [hs']
  have hnext : ∀ c t', (w ++ (d1 ++ (dtail ++ (w2 ++ (u ++ rest))))) = c :: t' →
      (c.toLower == 'd') = false := by
    intro c t' hct
    cases w with
    | nil => exact absurd rfl hw
    | cons wc w' =>
      rw [List.cons_append] at hct
      injection hct with h1 _
      subst h1
      simp only [List.all_cons, Bool.and_eq_true] at hwall
      exact space_lower_ne hwall.1 'd' (by decide)
  refine ⟨rest', ?_⟩
  rw [verbForward (by omega) hv hnext hrun, hgrp]

theorem costMatchShrinks {s : Text} {rc : MRes} (h : matchAt costSavingsRE s = some rc) :
    rc.rest.length < s.length := by
  obtain ⟨v, w, dol, n, w2, x, hs, hv, hwne, hwall, hdol, hnne, hnall, hw2all, hx⟩ :=
    costInv h
  have hvne : v ≠ [] := by
    rcases hv with h' | h' | h' | h' <;>
      (intro hveq; rw [hveq] at h'; simp [lowerText] at h')
  have hvlen : 0 < v.length := List.length_pos.mpr hvne
  have hlen := congrArg List.length hs
  simp [List.length_append] at hlen
  omega

theorem timeStart {tl : Text} {r : MRes} (h : matchAt timeSavingsRE tl = some r) :
    (lowerText tl).take 3 = ['s', 'a', 'v'] ∨ (lowerText tl).take 3 = ['r', 'e', 'd'] := by
  obtain ⟨v, w, d1, dtail, w2, u, rest, hs, hv, _⟩ := timeInv h
  rw [hs]
  have hassoc : v ++ w ++ d1 ++ dtail ++ w2 ++ u ++ rest
      = v ++ (w ++ (d1 ++ (dtail ++ (w2 ++ (u ++ rest))))) := by simp
  rw [hassoc, lowerText_append]
  rcases hv with h' | h' | h' | h' <;> rw [h']
  · left; rfl
  · left; rfl
  · right; rfl
  · right; rfl

theorem suffix_cons_cases {z : Text} {c : Char} {t : Text} (h : z <:+ c :: t) :
    z = c :: t ∨ z <:+ t := by
  obtain ⟨p, hp⟩ := h
  cases p with
  | nil => left; simpa using hp
  | cons pc p' =>
    right
    rw [List.cons_append] at hp
    injection hp with _ h2
    exact ⟨p', h2⟩

theorem suffix_append_cases (a : Text) {z b : Text} (h : z <:+ a ++ b) :
    z <:+ b ∨ ∃ x, x <:+ a ∧ x ≠ [] ∧ z = x ++ b := by
  induction a with
  | nil => left; simpa using h
  | cons c a' ih =>
    rw [List.cons_append] at h
    rcases suffix_cons_cases h with rfl | h'
    · right
      exact ⟨c :: a', List.suffix_refl _, by simp, rfl⟩
    · rcases ih h' with h'' | ⟨x, hx, hxne, rfl⟩
      · left; exact h''
      · right; exact ⟨x, hx.trans (List.suffix_cons c a'), hxne, rfl⟩

theorem suffix_drop_one {z W : Text} (h : z <:+ W) (hlen : z.length < W.length) :
    z <:+ W.drop 1 := by
  obtain ⟨p, hp⟩ := h
  cases p with
  | nil =>
    rw [List.nil_append] at hp
    rw [hp] at hlen
    omega
  | cons pc p' =>
    refine ⟨p', ?_⟩
    rw [← hp]
    rfl

theorem suffix_of_suffix_len_le {x y s : Text} (hx : x <:+ s) (hy : y <:+ s)
    (hl : x.length ≤ y.length) : x <:+ y := by
  obtain ⟨px, hpx⟩ := hx
  obtain ⟨py, hpy⟩ := hy
  have hxdrop : x = s.drop px.length := by rw [← hpx, List.drop_left]
  have hydrop : y = s.drop py.length := by rw [← hpy, List.drop_left]
  have hlx : s.length = px.length + x.length := by rw [← hpx]; simp
  have hly : s.length = py.length + y.length := by rw [← hpy]; simp
  have hplen : px.length = py.length + (px.length - py.length) := by omega
  rw [hxdrop, hplen, ← List.drop_drop, ← hydrop]
  exact List.drop_suffix _ _

theorem lowerText_suffix {z W : Text} (h : z <:+ W) : lowerText z <:+ lowerText W := by
  obtain ⟨p, hp⟩ := h
  refine ⟨lowerText p, ?_⟩
  rw [← lowerText_append, hp]

theorem lowerText_drop (n : Nat) (l : Text) : lowerText (l.drop n) = (lowerText l).drop n := by
  simp [lowerText]

theorem head_of_take3 {L : Text}
    (h : L.take 3 = ['s', 'a', 'v'] ∨ L.take 3 = ['r', 'e', 'd']) :
    L.head? = some 's' ∨ L.head? = some 'r' := by
  cases L with
  | nil => rcases h with h | h <;> simp [List.take] at h
  | cons c l' =>
    rcases h with h | h
    · left
      simp only [List.take_succ_cons] at h
      injection h with h1 _
      rw [h1]
      rfl
    · right
      simp only [List.take_succ_cons] at h
      injection h with h1 _
      rw [h1]
      rfl

theorem head_suffix_mem {hc : Char} {t1 chunk : Text} (hsuf : (hc :: t1) <:+ chunk) :
    hc ∈ chunk :=
  hsuf.sublist.subset (List.mem_cons_self hc t1)

theorem head_sr_of {tl : Text} {hc1 : Char} {t1 R : Text}
    (hhead : (lowerText tl).head? = some 's' ∨ (lowerText tl).head? = some 'r')
    (heq : tl = (hc1 :: t1) ++ R) : hc1.toLower = 's' ∨ hc1.toLower = 'r' := by
  subst heq
  rcases hhead with hh | hh
  · left
    rw [show (lowerText ((hc1 :: t1) ++ R)).head? = some hc1.toLower from rfl] at hh
    injection hh
  · right
    rw [show (lowerText ((hc1 :: t1) ++ R)).head? = some hc1.toLower from rfl] at hh
    injection hh

theorem chunkNoSR {hc1 : Char}
    (hcl : hc1.toLower = 's' ∨ hc1.toLower = 'r')
    (hsno : (hc1.toLower == 's') = false) (hrno : (hc1.toLower == 'r') = false) : False := by
  rcases hcl with h | h
  · rw [h] at hsno
    exact absurd hsno (by decide)
  · rw [h] at hrno
    exact absurd hrno (by decide)

theorem noTimeStartInsideCost {s tl : Text} {rc r : MRes}
    (hc : matchAt costSavingsRE s = some rc)
    (htl : tl <:+ s) (hlt : tl.length < s.length) (hgt : rc.rest.length < tl.length)
    (ht : matchAt timeSavingsRE tl = some r) : False := by
  obtain ⟨v, w, dol, n, w2, x, hs, hv, hwne, hwall, hdol, hnne, hnall, hw2all, hx⟩ :=
    costInv hc
  have h3 := timeStart ht
  have hhead := head_of_take3 h3
  have hs' : s = v ++ (w ++ (dol ++ (n ++ (w2 ++ (x ++ rc.rest))))) := by
    rw [hs]
    simp
  rw [hs'] at htl
  rcases suffix_append_cases v htl with htl1 | ⟨x1, hsuf, hne, rfl⟩
  · rcases suffix_append_cases w htl1 with htl2 | ⟨x1, hsuf, hne, rfl⟩
    · rcases suffix_append_cases dol htl2 with htl3 | ⟨x1, hsuf, hne, rfl⟩
      · rcases suffix_append_cases n htl3 with htl4 | ⟨x1, hsuf, hne, rfl⟩
        · rcases suffix_append_cases w2 htl4 with htl5 | ⟨x1, hsuf, hne, rfl⟩
          · rcases suffix_append_cases x htl5 with htl6 | ⟨x1, hsuf, hne, rfl⟩
            · have hle := htl6.length_le
              omega
            · cases x1 with
              | nil => exact hne rfl
              | cons hc1 t1 =>
                have hcl := head_sr_of hhead rfl
                rcases hx with rfl | hwd | hwd | hwd | hwd
                · obtain ⟨p, hp⟩ := hsuf
                  simp at hp
                · have hmem : hc1.toLower ∈ lowerText x :=
                    List.mem_map_of_mem _ (head_suffix_mem hsuf)
                  rw [hwd] at hmem
                  rcases hcl with h' | h' <;> rw [h'] at hmem <;>
                    exact absurd hmem (by decide)
                · have hmem : hc1.toLower ∈ lowerText x :=
                    List.mem_map_of_mem _ (head_suffix_mem hsuf)
                  rw [hwd] at hmem
                  rcases hcl with h' | h' <;> rw [h'] at hmem <;>
                    exact absurd hmem (by decide)
                · have hmem : hc1.toLower ∈ lowerText x :=
                    List.mem_map_of_mem _ (head_suffix_mem hsuf)
                  rw [hwd] at hmem
                  rcases hcl with h' | h' <;> rw [h'] at hmem <;>
                    exact absurd hmem (by decide)
                · have hmapsuf := lowerText_suffix hsuf
                  rw [hwd] at hmapsuf
                  rcases hcl with h' | h'
                  · have hm := (List.mem_tails _ _).mpr hmapsuf
                    have htails : ("thousand".toList).tails =
                        [ "thousand".toList, "housand".toList, "ousand".toList,
                          "usand".toList, "sand".toList, "and".toList, "nd".toList,
                          "d".toList, [] ] := rfl
                    rw [htails] at hm
                    simp only [List.mem_cons, List.not_mem_nil, or_false] at hm
                    have hfirst : lowerText (hc1 :: t1) = 's' :: lowerText t1 := by
                      rw [show lowerText (hc1 :: t1) = hc1.toLower :: lowerText t1 from rfl,
                        h']
                    rcases hm with hm | hm | hm | hm | hm | hm | hm | hm | hm <;>
                      rw [hfirst] at hm
                    · injection hm with h1 _
                      exact absurd h1 (by decide)
                    · injection hm with h1 _
                      exact absurd h1 (by decide)
                    · injection hm with h1 _
                      exact absurd h1 (by decide)
                    · injection hm with h1 _
                      exact absurd h1 (by decide)
                    · injection hm with _ hand
                      have htake : (lowerText ((hc1 :: t1) ++ rc.rest)).take 3
                          = ['s', 'a', 'n'] := by
                        rw [lowerText_append, hfirst, hand]
                        rfl
                      rcases h3 with h3' | h3' <;> rw [htake] at h3' <;>
                        exact absurd h3' (by decide)
                    · injection hm with h1 _
                      exact absurd h1 (by decide)
                    · injection hm with h1 _
                      exact absurd h1 (by decide)
                    · injection hm with h1 _
                      exact absurd h1 (by decide)
                    · exact absurd hm (by simp)
                  · have hmem : hc1.toLower ∈ lowerText x :=
                      List.mem_map_of_mem _ (head_suffix_mem hsuf)
                    rw [hwd, h'] at hmem
                    exact absurd hmem (by decide)
          · cases x1 with
            | nil => exact hne rfl
            | cons hc1 t1 =>
              have hcl := head_sr_of hhead rfl
              have hsp : isSpaceChar hc1 = true :=
                List.all_eq_true.mp hw2all _ (head_suffix_mem hsuf)
              exact chunkNoSR hcl (space_lower_ne hsp 's' (by decide))
                (space_lower_ne hsp 'r' (by decide))
        · cases x1 with
          | nil => exact hne rfl
          | cons hc1 t1 =>
            have hcl := head_sr_of hhead rfl
            have hp : (isDigitChar hc1 || (hc1.toLower == '.') || (hc1.toLower == ',')) =
                true := List.all_eq_true.mp hnall _ (head_suffix_mem hsuf)
            simp only [Bool.or_eq_true] at hp
            rcases hp with (hdg | hdot) | hcm
            · exact chunkNoSR hcl (digit_lower_ne hdg (by decide))
                (digit_lower_ne hdg (by decide))
            · have hde : hc1.toLower = '.' := by
                have := hdot
                simp only [beq_iff_eq] at this
                exact this
              rw [hde] at hcl
              rcases hcl with h' | h' <;> exact absurd h' (by decide)
            · have hde : hc1.toLower = ',' := by
                have := hcm
                simp only [beq_iff_eq] at this
                exact this
              rw [hde] at hcl
              rcases hcl with h' | h' <;> exact absurd h' (by decide)
      · cases x1 with
        | nil => exact hne rfl
        | cons hc1 t1 =>
          have hcl := head_sr_of hhead rfl
          rcases hdol with rfl | ⟨dc, rfl, hdc⟩
          · obtain ⟨p, hp⟩ := hsuf
            simp at hp
          · have hmem : hc1 ∈ [dc] := head_suffix_mem hsuf
            simp only [List.mem_singleton] at hmem
            rw [hmem, hdc] at hcl
            rcases hcl with h' | h' <;> exact absurd h' (by decide)
    · cases x1 with
      | nil => exact hne rfl
      | cons hc1 t1 =>
        have hcl := head_sr_of hhead rfl
        have hsp : isSpaceChar hc1 = true :=
          List.all_eq_true.mp hwall _ (head_suffix_mem hsuf)
        exact chunkNoSR hcl (space_lower_ne hsp 's' (by decide))
          (space_lower_ne hsp 'r' (by decide))
  · cases x1 with
    | nil => exact hne rfl
    | cons hc1 t1 =>
      have hcl := head_sr_of hhead rfl
      have h1 : ((hc1 :: t1 : Text) ++ (w ++ (dol ++ (n ++ (w2 ++ (x ++ rc.rest)))))).length
          = (hc1 :: t1 : Text).length
            + ((w ++ (dol ++ (n ++ (w2 ++ (x ++ rc.rest)))) : Text)).length :=
        List.length_append _ _
      have h2 : s.length
          = v.length + ((w ++ (dol ++ (n ++ (w2 ++ (x ++ rc.rest)))) : Text)).length := by
        rw [hs', List.length_append]
      have hlenlt : ((hc1 :: t1 : Text)).length < v.length := by omega
      have hdropsuf := suffix_drop_one hsuf hlenlt
      have hmem : hc1.toLower ∈ lowerText (v.drop 1) :=
        List.mem_map_of_mem _ (head_suffix_mem hdropsuf)
      rw [lowerText_drop] at hmem
      rcases hv with hh' | hh' | hh' | hh' <;> rw [hh'] at hmem <;>
        rcases hcl with h' | h' <;> rw [h'] at hmem <;> exact absurd hmem (by decide)

theorem costScanCatches :
    ∀ (n : Nat) (s : Text), s.length < n →
    ∀ (tl : Text) (r : MRes), tl <:+ s → matchAt timeSavingsRE tl = some r →
    r.grp ∈ findall costSavingsRE s := by
  intro n
  induction n with
  | zero =>
    intro s h
    omega
  | succ n ih =>
    intro s hn tl r htl ht
    cases s with
    | nil =>
      obtain ⟨p, hp⟩ := htl
      simp only [List.append_eq_nil] at hp
      rw [hp.2] at ht
      rcases timeStart ht with h' | h' <;> simp [lowerText] at h'
    | cons c t =>
      cases hm : matchAt costSavingsRE (c :: t) with
      | none =>
        rw [findall_cons_nomatch hm]
        rcases suffix_cons_cases htl with rfl | htl'
        · obtain ⟨rest', hcost⟩ := timeToCost ht
          rw [hcost] at hm
          exact absurd hm (by simp)
        · exact ih t (by simp at hn; omega) tl r htl' ht
      | some rc =>
        have hshrink := costMatchShrinks hm
        rw [findall_cons_match hm hshrink]
        rcases suffix_cons_cases htl with rfl | htl'
        · obtain ⟨rest', hcost⟩ := timeToCost ht
          rw [hm] at hcost
          injection hcost with heq
          have hg : rc.grp = r.grp := by rw [heq]
          rw [hg]
          exact List.mem_cons_self _ _
        · by_cases hcmp : tl.length ≤ rc.rest.length
          · have hsub : tl <:+ rc.rest :=
              suffix_of_suffix_len_le htl (matchAt_rest_suffix hm) hcmp
          -- placeholder
            have hmem := ih rc.rest (by
              have h1 : ((c :: t : Text)).length = t.length + 1 := rfl
              omega) tl r hsub ht
            exact List.mem_cons_of_mem _ hmem
          · have hlt2 : tl.length < ((c :: t : Text)).length := by
              have hle := htl'.length_le
              have h1 : ((c :: t : Text)).length = t.length + 1 := rfl
              omega
            exact (noTimeStartInsideCost hm htl hlt2 (by omega) ht).elim

theorem findall_time_subset_cost {text v : Text}
    (h : v ∈ findall timeSavingsRE text) : v ∈ findall costSavingsRE text := by
  obtain ⟨s', hsuf, r, hm, hg⟩ := findall_sound_top h
  rw [← hg]
  exact costScanCatches (text.length + 1) text (by omega) s' r hsuf hm

/-- Claim C9: for every input text, every `time_savings` Metric returned by
`extract_metrics` is accompanied in the output by a `cost_savings` Metric
capturing the same number (the cost pattern's currency symbol and magnitude
suffix are both optional, so any `saved/reduced <number> <time unit>` phrase
also matches the cost pattern with the same capture); in particular
`"We reduced latency by 40% and saved 3 hours"` yields a `cost_savings`
Metric with value `"3"` alongside the `time_savings` Metric. -/
theorem claim_C9_time_implies_cost :
    (∀ (text : Text) (m : Metric), m ∈ extract_metrics text →
        m.type = "time_savings".toList →
        ∃ m' ∈ extract_metrics text,
          m'.type = "cost_savings".toList ∧ m'.value = m.value) ∧
    ((∃ m ∈ extract_metrics "We reduced latency by 40% and saved 3 hours".toList,
        m.type = "time_savings".toList ∧ m.value = "3".toList) ∧
     (∃ m' ∈ extract_metrics "We reduced latency by 40% and saved 3 hours".toList,
        m'.type = "cost_savings".toList ∧ m'.value = "3".toList)) := by
  refine ⟨?_, ?_, ?_⟩
  · intro text m hm hty
    rw [extract_metrics_eq_flatMap] at hm
    simp only [List.mem_flatMap, List.mem_map] at hm
    obtain ⟨p, hp, v, hv, rfl⟩ := hm
    simp only [METRIC_PATTERNS, List.mem_cons, List.not_mem_nil, or_false] at hp
    have hvtime : v ∈ findall timeSavingsRE text := by
      rcases hp with rfl | rfl | rfl | rfl
      · have hty' : ("percentage".toList : Text) = "time_savings".toList := hty
        exact absurd hty' (by decide)
      · have hty' : ("multiplier".toList : Text) = "time_savings".toList := hty
        exact absurd hty' (by decide)
      · exact hv
      · have hty' : ("cost_savings".toList : Text) = "time_savings".toList := hty
        exact absurd hty' (by decide)
    refine ⟨⟨"cost_savings".toList, v, text.take 200⟩, ?_, rfl, rfl⟩
    rw [extract_metrics_eq_flatMap]
    simp only [List.mem_flatMap, List.mem_map]
    exact ⟨("cost_savings".toList, costSavingsRE), by simp [METRIC_PATTERNS],
      v, findall_time_subset_cost hvtime, rfl⟩
  · exact ⟨⟨"time_savings".toList, "3".toList,
      "We reduced latency by 40% and saved 3 hours".toList.take 200⟩,
      by decide, rfl, rfl⟩
  · exact ⟨⟨"cost_savings".toList, "3".toList,
      "We reduced latency by 40% and saved 3 hours".toList.take 200⟩,
      by decide, rfl, rfl⟩

theorem claim_C9_witness :
    ∃ m' ∈ extract_metrics "saved 5 days".toList,
      m'.type = "cost_savings".toList ∧
        m'.value = (⟨"time_savings".toList, "5".toList,
          "saved 5 days".toList.take 200⟩ : Metric).value :=
  claim_C9_time_implies_cost.1 "saved 5 days".toList
    ⟨"time_savings".toList, "5".toList, "saved 5 days".toList.take 200⟩
    (by decide) rfl
